import Mathlib

/-!
Verification of the senscord Python package against its specification.

The development shallowly embeds the relevant Python modules:

* senscord/_temporal_contrast_data.py - the bounds-checked event-stream
  parser (TemporalContrastData, TemporalContrastEventsTimeslice,
  TemporalContrastEventArray);
* senscord/serialize.py - the schema-driven structure codec
  (Structure.to_dict / from_dict / _encode / _decode, the msgpack layer);
* senscord/_utils.py - the CEnum codec;
* senscord/senscord_property_utils.py - the property key composer.

A raw buffer is a list of byte values; Python integers are Int or Nat;
exceptions are modelled with Except / Option.
-/

namespace SensCord

/-! ## Byte buffers and little-endian reads

The Python code reads u32/u64/u16/i8 fields through ctypes casts into a
borrowed buffer.  We model the buffer as a list of bytes (each < 256) and
the casts as little-endian reads; out-of-range reads yield byte 0, but the
theorems below only ever rely on reads that the source has bounds-checked.
-/

def Buffer := List Nat

instance : Inhabited Buffer := ⟨([] : List Nat)⟩

/-- Little-endian read of n bytes starting at offset off. -/
def readLE (buf : Buffer) (off : Nat) : Nat → Nat
  | 0 => 0
  | n + 1 => (List.getD buf off 0) + 256 * readLE buf (off + 1) n

/-- ctypes.c_uint32 read. -/
def readU32 (buf : Buffer) (off : Nat) : Nat := readLE buf off 4

/-- ctypes.c_uint64 read. -/
def readU64 (buf : Buffer) (off : Nat) : Nat := readLE buf off 8

/-- ctypes.c_uint16 read. -/
def readU16 (buf : Buffer) (off : Nat) : Nat := readLE buf off 2

/-- ctypes.c_int8 read (two's complement). -/
def readI8 (buf : Buffer) (off : Nat) : Int :=
  let b := List.getD buf off 0
  if b < 128 then (b : Int) else (b : Int) - 256

/-! ## _temporal_contrast_data.py -/

/-- TEMPORAL_CONTRAST_DATA_HEADER. -/
def TEMPORAL_CONTRAST_DATA_HEADER : Nat := 16

/-- TEMPORAL_CONTRAST_EVENTS_TIMESLICE_HEADER. -/
def TEMPORAL_CONTRAST_EVENTS_TIMESLICE_HEADER : Nat := 24

/-- ctypes.sizeof(TemporalContrastEvent): 2+2+1+1 packed bytes. -/
def TEMPORAL_CONTRAST_EVENT_SIZE : Nat := 6

/-- TemporalContrastEvent: the fixed 6-byte record
(x: u16, y: u16, p: i8, reserved: u8). -/
structure TemporalContrastEvent where
  x : Nat
  y : Nat
  p : Int
  reserved : Nat
  deriving DecidableEq, Repr

/-- Reading one TemporalContrastEvent record at a byte offset
(the ctypes structure layout of _temporal_contrast_data.py). -/
def readEvent (buf : Buffer) (off : Nat) : TemporalContrastEvent :=
  { x := readU16 buf off
    y := readU16 buf (off + 2)
    p := readI8 buf (off + 4)
    reserved := List.getD buf (off + 5) 0 }

/-- TemporalContrastEventArray: a zero-copy view with a base address
(offset of the first record in the buffer), an event count, and the
iteration cursor set up by the constructor. -/
structure TemporalContrastEventArray where
  addr : Nat
  count : Nat
  cursor : Nat
  deriving DecidableEq, Repr

/-- TemporalContrastEventArray.__init__(address, count): cursor starts at 0. -/
def eventArrayInit (addr count : Nat) : TemporalContrastEventArray :=
  { addr := addr, count := count, cursor := 0 }

/-- TemporalContrastEventArray.__iter__: returns self (the cursor is not
reset). -/
def eventArrayIter (a : TemporalContrastEventArray) : TemporalContrastEventArray := a

/-- TemporalContrastEventArray.__next__: StopIteration (modelled as the
error case) once the cursor has passed the count, otherwise the record at
the cursor and the advanced array. -/
def eventArrayNext (buf : Buffer) (a : TemporalContrastEventArray) :
    Except Unit (TemporalContrastEvent × TemporalContrastEventArray) :=
  if a.count ≤ a.cursor then
    .error ()
  else
    .ok (readEvent buf (a.addr + TEMPORAL_CONTRAST_EVENT_SIZE * a.cursor),
         { a with cursor := a.cursor + 1 })

/-- n applications of __next__ (discarding yielded elements; an exhausted
iterator is left unchanged, as in the source where StopIteration does not
advance the cursor). -/
def eventArrayNextN (buf : Buffer) : Nat → TemporalContrastEventArray → TemporalContrastEventArray
  | 0, a => a
  | n + 1, a =>
    match eventArrayNext buf a with
    | .ok (_, a') => eventArrayNextN buf n a'
    | .error _ => a

/-- TemporalContrastEventArray.__getitem__ with an int index:
bounds-checked (count <= num or num < 0 raises IndexError), then the
record at self.event[num], i.e. byte offset addr + 6*num. -/
def eventArrayGetInt (buf : Buffer) (a : TemporalContrastEventArray) (num : Int) :
    Except String TemporalContrastEvent :=
  if a.count ≤ num ∨ num < 0 then
    .error ("Index(" ++ toString num ++ ") is out of range.")
  else
    .ok (readEvent buf (a.addr + TEMPORAL_CONTRAST_EVENT_SIZE * num.toNat))

/-- One endpoint of slice.indices: an absent endpoint takes its default,
a negative endpoint is taken from the end of the sequence and clamped at
lower, a nonnegative one is clamped at upper. -/
def sliceClamp (len lower upper dflt : Int) : Option Int → Int
  | .none => dflt
  | .some x => if x < 0 then max (x + len) lower else min x upper

/-- slice.indices(length) for a slice(start, stop, step) with step /= 0:
the CPython clamping algorithm (PySlice_GetIndicesEx). -/
def sliceIndices (start stop step : Option Int) (length : Nat) : Int × Int × Int :=
  let st : Int := step.getD 1
  let lower : Int := if st < 0 then -1 else 0
  let upper : Int := if st < 0 then (length : Int) - 1 else (length : Int)
  (sliceClamp length lower upper (if st < 0 then upper else lower) start,
   sliceClamp length lower upper (if st < 0 then lower else upper) stop,
   st)

/-- range(b, e, s) for a positive step s: count up from b while below e. -/
def rangeListUp (b e : Int) (s : Nat) : List Int :=
  if b < e ∧ 0 < s then b :: rangeListUp (b + s) e s else []
termination_by (e - b).toNat
decreasing_by omega

/-- range(b, e, -s) for a positive s: count down from b while above e. -/
def rangeListDown (b e : Int) (s : Nat) : List Int :=
  if e < b ∧ 0 < s then b :: rangeListDown (b - s) e s else []
termination_by (b - e).toNat
decreasing_by omega

/-- The index list of range(b, e, st) for st /= 0. -/
def rangeList (b e st : Int) : List Int :=
  if 0 < st then rangeListUp b e st.toNat else rangeListDown b e (-st).toNat

/-- TemporalContrastEventArray.__getitem__ with a slice: ValueError for a
zero step (raised by slice.indices), else
tuple(self.event[i] for i in range(*num.indices(self.count))); the
per-index reads are unchecked in the source, relying on the clamping. -/
def eventArrayGetSlice (buf : Buffer) (a : TemporalContrastEventArray)
    (start stop step : Option Int) : Except String (List TemporalContrastEvent) :=
  if step = .some 0 then
    .error "slice step cannot be zero"
  else
    let (b, e, st) := sliceIndices start stop step a.count
    .ok ((rangeList b e st).map
      (fun i => readEvent buf (a.addr + TEMPORAL_CONTRAST_EVENT_SIZE * i.toNat)))

/-- TemporalContrastEventsTimeslice: timestamp, count, data_size and the
events view (base address + 24). -/
structure TemporalContrastEventsTimeslice where
  timestamp : Nat
  count : Nat
  data_size : Nat
  events : TemporalContrastEventArray
  deriving DecidableEq, Repr

/-- TemporalContrastEventsTimeslice.__len__. -/
def timesliceLen (ts : TemporalContrastEventsTimeslice) : Nat := ts.count

/-- TemporalContrastEventsTimeslice.__init__(address, size): checks
size >= 24 before reading the header, reads timestamp and count, computes
data_size = count * 6 + 24, checks size >= data_size before exposing the
records, then builds the event view at address + 24.  The remaining size is
an Int because the caller passes size - offset. -/
def timesliceInit (buf : Buffer) (addr : Nat) (size : Int) :
    Except String TemporalContrastEventsTimeslice :=
  if size < (TEMPORAL_CONTRAST_EVENTS_TIMESLICE_HEADER : Int) then
    .error "Timeslice index buffer overrun at EventsTimeslice header."
  else
    let timestamp := readU64 buf addr
    let count := readU32 buf (addr + 8)
    let data_size := count * TEMPORAL_CONTRAST_EVENT_SIZE +
      TEMPORAL_CONTRAST_EVENTS_TIMESLICE_HEADER
    if size < (data_size : Int) then
      .error "Timeslice buffer overrun."
    else
      .ok { timestamp := timestamp
            count := count
            data_size := data_size
            events := eventArrayInit (addr + TEMPORAL_CONTRAST_EVENTS_TIMESLICE_HEADER) count }

/-- The bundle loop of TemporalContrastData.from_bytes: parse n bundles
starting at offset, each validated against the remaining size
(size - offset) before being recorded; returns the bundles and the final
offset. -/
def parseBundles (buf : Buffer) (size : Int) :
    Nat → Nat → Except String (List TemporalContrastEventsTimeslice × Nat)
  | 0, offset => .ok ([], offset)
  | n + 1, offset =>
    match timesliceInit buf offset (size - (offset : Int)) with
    | .error e => .error e
    | .ok ts =>
      match parseBundles buf size n (offset + ts.data_size) with
      | .error e => .error e
      | .ok (rest, fin) => .ok (ts :: rest, fin)

/-- TemporalContrastData state: count and bundles, initialised to 0 / None
by the constructor and assigned only after all bundles parsed. -/
structure TemporalContrastData where
  count : Nat
  bundles : Option (List TemporalContrastEventsTimeslice)
  deriving DecidableEq, Repr

/-- The state TemporalContrastData.__init__ establishes before from_bytes. -/
def tcInit : TemporalContrastData := { count := 0, bundles := none }

/-- TemporalContrastData.from_bytes(address, size) as a parse function:
BufferError if size < 16, else read count at offset 0 and parse that many
bundles starting at offset 16. -/
def tcFromBytes (buf : Buffer) (size : Int) : Except String TemporalContrastData :=
  if size < (TEMPORAL_CONTRAST_DATA_HEADER : Int) then
    .error ("size(" ++ toString size ++ ") is smaller than TemporalContrastData header size.")
  else
    let count := readU32 buf 0
    match parseBundles buf size count TEMPORAL_CONTRAST_DATA_HEADER with
    | .error e => .error e
    | .ok (bundles, _) => .ok { count := count, bundles := some bundles }

/-- Method-call semantics of from_bytes on an object: the fields
self.count / self.bundles are assigned only after the loop completes, so a
raised BufferError leaves the object state untouched. -/
def tcLoad (self : TemporalContrastData) (buf : Buffer) (size : Int) : TemporalContrastData :=
  match tcFromBytes buf size with
  | .ok tc => tc
  | .error _ => self

/-! ## serialize.py: data model

Python class objects passed as the class_type argument of
Structure._encode / Structure._decode.  In the source these are either a
single class, a tuple of classes, an Array instance, or None; the classes
occurring in schemas are the MutableValue wrappers (Integer and its
aliases, Float, Bool, String), bytearray, CEnum subclasses, Structure
subclasses, and the builtins list and dict.  CT.tupC models a Python
tuple of class types (CT.tupC [] is the empty tuple).  CT.arrC models a
serialize.Array instance used as a class_type: it is not a type, so
isinstance(current_class, type) is false and both _encode and _decode
treat it as inert.  Field names and text payloads are byte lists (the
UTF-8 form, so that str.encode / bytes.decode are the identity on the
payload). -/

inductive CT where
  | noneC
  | intC
  | floatC
  | boolC
  | strC
  | byteArrC
  | enumC (values : List Int)
  | structC (s : List (List Nat × CT))
  | listC
  | dictC
  | arrC
  | tupC (ts : List CT)

/-- The ordered (field name, class type) schema of a Structure subclass
(its _fields_ attribute). -/
abbrev SchemaFields := List (List Nat × CT)

/-! Boolean equality of class types and schemas (used by the conformance
predicate; soundness is proved after the definitions). -/

mutual
def ctEqB : CT → CT → Bool
  | .noneC, .noneC => true
  | .intC, .intC => true
  | .floatC, .floatC => true
  | .boolC, .boolC => true
  | .strC, .strC => true
  | .byteArrC, .byteArrC => true
  | .enumC a, .enumC b => a == b
  | .structC s, .structC t => sfEqB s t
  | .listC, .listC => true
  | .dictC, .dictC => true
  | .arrC, .arrC => true
  | .tupC a, .tupC b => ctlEqB a b
  | _, _ => false
def ctlEqB : List CT → List CT → Bool
  | [], [] => true
  | a :: r, b :: t => ctEqB a b && ctlEqB r t
  | _, _ => false
def sfEqB : SchemaFields → SchemaFields → Bool
  | [], [] => true
  | (n, a) :: r, (m, b) :: t => n == m && ctEqB a b && sfEqB r t
  | _, _ => false
end

/-- Python values flowing through the codec: None, int, bool, float
(modelled by its IEEE-754 bit pattern, which msgpack preserves exactly),
str and bytes and bytearray (payload as UTF-8 byte list), list, dict
(association list in insertion order - Python dicts preserve insertion
order), Structure instances (their class schema plus attribute values) and
CEnum instances (the underlying integer). -/
inductive PyVal where
  | none
  | int (n : Int)
  | bool (b : Bool)
  | float (bits : Nat)
  | str (s : List Nat)
  | bytes (s : List Nat)
  | bytearr (s : List Nat)
  | list (xs : List PyVal)
  | dict (es : List (PyVal × PyVal))
  | struct (s : SchemaFields) (vals : List (List Nat × PyVal))
  | enumv (n : Int)

/-- The attribute map of a Structure instance (member name to value). -/
abbrev PyFields := List (List Nat × PyVal)

/-- The entry list of a Python dict value. -/
abbrev PyPairs := List (PyVal × PyVal)

/-! Structural Boolean equality of Python values (soundness and
reflexivity are proved after the definitions). -/
mutual
def pvEqB : PyVal → PyVal → Bool
  | .none, .none => true
  | .int a, .int b => a == b
  | .bool a, .bool b => a == b
  | .float a, .float b => a == b
  | .str a, .str b => a == b
  | .bytes a, .bytes b => a == b
  | .bytearr a, .bytearr b => a == b
  | .list xs, .list ys => plEqB xs ys
  | .dict a, .dict b => ppEqB a b
  | .struct s vals, .struct t wals => sfEqB s t && pfEqB vals wals
  | .enumv a, .enumv b => a == b
  | _, _ => false
def plEqB : List PyVal → List PyVal → Bool
  | [], [] => true
  | a :: r, b :: t => pvEqB a b && plEqB r t
  | _, _ => false
def ppEqB : PyPairs → PyPairs → Bool
  | [], [] => true
  | (k, v) :: r, (l, w) :: t => pvEqB k l && pvEqB v w && ppEqB r t
  | _, _ => false
def pfEqB : PyFields → PyFields → Bool
  | [], [] => true
  | (n, v) :: r, (m, w) :: t => n == m && pvEqB v w && pfEqB r t
  | _, _ => false
end

/-- Python truthiness of the values above: None, zero numbers, empty
text/bytes and empty containers are falsy; a Structure instance is always
truthy (no __bool__ / __len__); a ctypes-backed CEnum is truthy iff its
value is nonzero.  Float zero covers both +0.0 and -0.0 bit patterns. -/
def truthy : PyVal → Bool
  | .none => false
  | .int n => n != 0
  | .bool b => b
  | .float bits => !(bits == 0 || bits == 0x8000000000000000)
  | .str s => !s.isEmpty
  | .bytes s => !s.isEmpty
  | .bytearr s => !s.isEmpty
  | .list [] => false
  | .list _ => true
  | .dict [] => false
  | .dict _ => true
  | .struct _ _ => true
  | .enumv n => n != 0

/-- Python == between dict keys.  Python dict keys must be hashable, so
only scalars occur as keys here (lists, dicts, bytearrays and Structure
instances - which define __eq__ without __hash__ - cannot be keys).
Python's numeric cross-type equality between bool and int is modelled;
float keys (which no schema uses) compare only with floats, by bit
pattern. -/
def pyKeyEq : PyVal → PyVal → Bool
  | .none, .none => true
  | .int a, .int b => a == b
  | .bool a, .bool b => a == b
  | .bool a, .int b => (if a then (1 : Int) else 0) == b
  | .int a, .bool b => a == (if b then (1 : Int) else 0)
  | .float a, .float b => a == b
  | .str a, .str b => a == b
  | .bytes a, .bytes b => a == b
  | .enumv a, .enumv b => a == b
  | .enumv a, .int b => a == b
  | .int a, .enumv b => a == b
  | _, _ => false

/-- input_dict.get(key): first entry with an equal key, None when absent. -/
def dictGet : PyPairs → PyVal → Option PyVal
  | [], _ => Option.none
  | (k, v) :: r, key => if pyKeyEq k key then some v else dictGet r key

/-- getattr(self, name) for the modelled instance attribute map. -/
def fieldGet : PyFields → List Nat → Option PyVal
  | [], _ => Option.none
  | (n, v) :: r, name => if n = name then some v else fieldGet r name

/-- The declared field names of a schema, in order. -/
def schemaNames (s : SchemaFields) : List (List Nat) := s.map Prod.fst

/-! msgpack.packb(value, use_bin_type=False) followed by
msgpack.unpackb(..., raw=True): the value tree a decoder receives for a
given packed value tree.  With use_bin_type=False both str and bytes are
packed as the msgpack raw family, and raw=True unpacks that family as
bytes, so text becomes its UTF-8 byte string; every other supported shape
round-trips unchanged (ints, bools, nil, float bits, list order, dict
insertion order).  packb raises TypeError on unsupported objects
(Structure instances, ctypes enum values), modelled as Option.none.  On
these trees the byte serialization of msgpack is injective, so equality of
to_bytes() results is equality of the packed trees. -/

mutual
def pack : PyVal → Option PyVal
  | .none => some .none
  | .int n => some (.int n)
  | .bool b => some (.bool b)
  | .float bits => some (.float bits)
  | .str s => some (.bytes s)
  | .bytes s => some (.bytes s)
  | .bytearr s => some (.bytes s)
  | .list xs =>
    match packList xs with
    | some ys => some (.list ys)
    | Option.none => Option.none
  | .dict es =>
    match packPairs es with
    | some es' => some (.dict es')
    | Option.none => Option.none
  | .struct _ _ => Option.none
  | .enumv _ => Option.none
def packList : List PyVal → Option (List PyVal)
  | [] => some []
  | x :: r =>
    match pack x, packList r with
    | some y, some r' => some (y :: r')
    | _, _ => Option.none
def packPairs : PyPairs → Option PyPairs
  | [] => some []
  | (k, v) :: r =>
    match pack k, pack v, packPairs r with
    | some k', some v', some r' => some ((k', v') :: r')
    | _, _, _ => Option.none
end

/-- The class_type preamble of Structure._encode / Structure._decode:
a tuple class_type is split into its head (current_class) and tail
(class_type[1:], still a tuple); any other class_type becomes
(class_type, None).  class_type[0] of an empty tuple raises IndexError,
modelled as Option.none. -/
def ctSplit : CT → Option (CT × CT)
  | .tupC [] => Option.none
  | .tupC (c :: cs) => some (c, .tupC cs)
  | c => some (c, .noneC)

/-- The dict branch preamble: a remaining 1-tuple class_type is unwrapped
(class_type = class_type[0]), and then class_type[0] / class_type[1]
select the key and value types; anything else raises (TypeError on
indexing a non-tuple, IndexError on a too-short tuple), modelled as
Option.none. -/
def dictRestSplit : CT → Option (CT × CT)
  | .tupC [x] =>
    match x with
    | .tupC (kt :: vt :: _) => some (kt, vt)
    | _ => Option.none
  | .tupC (kt :: vt :: _) => some (kt, vt)
  | _ => Option.none

/-! Structure._encode and Structure.to_dict (mutually recursive through
nested structures).  The branch dispatch on current_class (issubclass
checks guarded by isinstance(current_class, type)) is a match: only the
list and dict classes trigger container handling, every other class type
falls through; the final isinstance(value, Structure) /
isinstance(value, CEnum) conversions cannot fire on the result of the
list / dict container branches (those results are a list or a dict), so
they are checked only on the fall-through path.  A non-list value
reaching the list branch, or a non-dict value reaching the dict branch,
is outside every declared schema and is modelled as a failure (in the
source the enumerate / .items() access raises or misbehaves there).
Schemas declare field names as str, so the member name is used as text
directly (the member_name.decode() fallback of to_dict is for byte-string
names, which no schema of the package uses). -/

mutual
def structure_encode (v : PyVal) (ct : CT) : Option PyVal :=
  match ctSplit ct with
  | Option.none => Option.none
  | some (cur, rest) =>
    match cur with
    | .listC =>
      match v with
      | .list xs =>
        match structure_encodeList xs rest with
        | some ys => some (.list ys)
        | Option.none => Option.none
      | _ => Option.none
    | .dictC =>
      match dictRestSplit rest with
      | Option.none => Option.none
      | some (kt, vt) =>
        match v with
        | .dict es =>
          match structure_encodePairs es kt vt with
          | some es' => some (.dict es')
          | Option.none => Option.none
        | _ => Option.none
    | _ =>
      match v with
      | .struct s vals =>
        match to_dict s vals with
        | some d => some (.dict d)
        | Option.none => Option.none
      | .enumv n => some (.int n)
      | w => some w
termination_by (sizeOf v, sizeOf ct)

def structure_encodeList (xs : List PyVal) (ct : CT) : Option (List PyVal) :=
  match xs with
  | [] => some []
  | x :: r =>
    match structure_encode x ct, structure_encodeList r ct with
    | some y, some r' => some (y :: r')
    | _, _ => Option.none
termination_by (sizeOf xs, sizeOf ct)

def structure_encodePairs (es : PyPairs) (kt vt : CT) : Option PyPairs :=
  match es with
  | [] => some []
  | (k, v) :: r =>
    match structure_encode k kt, structure_encode v vt, structure_encodePairs r kt vt with
    | some k', some v', some r' => some ((k', v') :: r')
    | _, _, _ => Option.none
termination_by (sizeOf es, sizeOf kt + sizeOf vt)

def to_dict (s : SchemaFields) (vals : PyFields) : Option PyPairs :=
  match s with
  | [] => some []
  | (name, ct) :: rest =>
    match hx : fieldGet vals name with
    | Option.none => Option.none
    | some x =>
      match structure_encode x ct, to_dict rest vals with
      | some w, some tail => some ((.str name, w) :: tail)
      | _, _ => Option.none
termination_by (sizeOf vals, sizeOf s)
decreasing_by
· simp only [Prod.lex_def]
  refine Or.inl ?_
  clear * - hx
  induction vals with
  | nil => simp [fieldGet] at hx
  | cons p r ih =>
    obtain ⟨n, w⟩ := p
    rw [fieldGet] at hx
    by_cases hn : n = name
    · rw [if_pos hn] at hx
      cases hx
      simp only [List.cons.sizeOf_spec, Prod.mk.sizeOf_spec]
      omega
    · rw [if_neg hn] at hx
      have := ih hx
      simp only [List.cons.sizeOf_spec]
      omega
· simp only [Prod.lex_def, List.cons.sizeOf_spec]
  exact Or.inr ⟨trivial, by omega⟩
end

/-! Structure._decode and Structure.from_dict (mutually recursive through
nested structures).  from_dict looks each declared field up by its str
name, retries with the bytes form when the found value is falsy (the
source retries on "not value", which also overwrites a falsy found value
with the result of the second lookup), decodes the value only when the
final value is truthy, and assigns the result to the attribute
unconditionally.  _decode turns a wire value into a bytearray for
bytearray-typed fields (other operand shapes of the bytearray constructor
do not occur on the wire) and rebuilds Structure instances via from_dict;
list and dict class types recurse; every other class type leaves the
value unchanged. -/

mutual
def structure_decode (v : PyVal) (ct : CT) : Option PyVal :=
  match hs : ctSplit ct with
  | Option.none => Option.none
  | some (cur, rest) =>
    match cur with
    | .listC =>
      match v with
      | .list xs =>
        match structure_decodeList xs rest with
        | some ys => some (.list ys)
        | Option.none => Option.none
      | _ => Option.none
    | .dictC =>
      match hr : dictRestSplit rest with
      | Option.none => Option.none
      | some (kt, vt) =>
        match v with
        | .dict es =>
          match structure_decodePairs es kt vt with
          | some es' => some (.dict es')
          | Option.none => Option.none
        | _ => Option.none
    | .structC s =>
      match v with
      | .dict es =>
        match from_dict s es with
        | some fs => some (.struct s fs)
        | Option.none => Option.none
      | _ => Option.none
    | .byteArrC =>
      match v with
      | .bytes b => some (.bytearr b)
      | .bytearr b => some (.bytearr b)
      | _ => Option.none
    | _ => some v
termination_by (sizeOf ct, sizeOf v)
decreasing_by
· simp only [Prod.lex_def]
  unfold ctSplit at hs
  split at hs
  · simp at hs
  · simp only [Option.some.injEq, Prod.mk.injEq] at hs
    obtain ⟨rfl, rfl⟩ := hs
    exact Or.inl (by simp only [CT.tupC.sizeOf_spec, List.cons.sizeOf_spec]; omega)
  · simp only [Option.some.injEq, Prod.mk.injEq] at hs
    obtain ⟨rfl, rfl⟩ := hs
    exact Or.inr ⟨by simp, by simp only [PyVal.list.sizeOf_spec]; omega⟩
· simp only [Prod.lex_def]
  refine Or.inl ?_
  have hkv : sizeOf kt + sizeOf vt + 2 ≤ sizeOf rest := by
    unfold dictRestSplit at hr
    split at hr
    · split at hr
      · simp only [Option.some.injEq, Prod.mk.injEq] at hr
        obtain ⟨rfl, rfl⟩ := hr
        simp only [CT.tupC.sizeOf_spec, List.cons.sizeOf_spec, List.nil.sizeOf_spec]
        omega
      · simp at hr
    · simp only [Option.some.injEq, Prod.mk.injEq] at hr
      obtain ⟨rfl, rfl⟩ := hr
      simp only [CT.tupC.sizeOf_spec, List.cons.sizeOf_spec]
      omega
    · simp at hr
  have hrc : sizeOf rest ≤ sizeOf ct + 1 := by
    unfold ctSplit at hs
    split at hs
    · simp at hs
    · simp only [Option.some.injEq, Prod.mk.injEq] at hs
      obtain ⟨rfl, rfl⟩ := hs
      simp only [CT.tupC.sizeOf_spec, List.cons.sizeOf_spec]
      omega
    · simp only [Option.some.injEq, Prod.mk.injEq] at hs
      obtain ⟨rfl, rfl⟩ := hs
      simp
  omega
· simp only [Prod.lex_def]
  refine Or.inl ?_
  unfold ctSplit at hs
  split at hs
  · simp at hs
  · simp only [Option.some.injEq, Prod.mk.injEq] at hs
    obtain ⟨rfl, rfl⟩ := hs
    simp only [CT.tupC.sizeOf_spec, CT.structC.sizeOf_spec, List.cons.sizeOf_spec]
    omega
  · simp only [Option.some.injEq, Prod.mk.injEq] at hs
    obtain ⟨rfl, rfl⟩ := hs
    simp only [CT.structC.sizeOf_spec]
    omega

def structure_decodeList (xs : List PyVal) (ct : CT) : Option (List PyVal) :=
  match xs with
  | [] => some []
  | x :: r =>
    match structure_decode x ct, structure_decodeList r ct with
    | some y, some r' => some (y :: r')
    | _, _ => Option.none
termination_by (sizeOf ct, sizeOf xs)

def structure_decodePairs (es : PyPairs) (kt vt : CT) : Option PyPairs :=
  match es with
  | [] => some []
  | (k, v) :: r =>
    match structure_decode k kt, structure_decode v vt, structure_decodePairs r kt vt with
    | some k', some v', some r' => some ((k', v') :: r')
    | _, _, _ => Option.none
termination_by (sizeOf kt + sizeOf vt, sizeOf es)
decreasing_by
· have hvt : 0 < sizeOf vt := by cases vt <;> simp_arith
  exact Prod.Lex.left _ _ (by omega)
· have hkt : 0 < sizeOf kt := by cases kt <;> simp_arith
  exact Prod.Lex.left _ _ (by omega)
· simp only [Prod.lex_def]
  exact Or.inr ⟨trivial, by simp only [List.cons.sizeOf_spec, Prod.mk.sizeOf_spec]; omega⟩

def from_dict (s : SchemaFields) (es : PyPairs) : Option PyFields :=
  match s with
  | [] => some []
  | (name, ct) :: rest =>
    let v0 := (dictGet es (.str name)).getD .none
    let value := if truthy v0 then v0 else (dictGet es (.bytes name)).getD .none
    let dec := if truthy value then structure_decode value ct else some value
    match dec, from_dict rest es with
    | some value', some tail => some ((name, value') :: tail)
    | _, _ => Option.none
termination_by (sizeOf s, sizeOf es)
decreasing_by
· exact Prod.Lex.left _ _ (by simp only [List.cons.sizeOf_spec, Prod.mk.sizeOf_spec]; omega)
· exact Prod.Lex.left _ _ (by simp only [List.cons.sizeOf_spec, Prod.mk.sizeOf_spec]; omega)
end

/-- Serializable.to_bytes for a Structure instance:
Encoder().push(self.to_dict()) writes msgpack.packb of the field dict
(a plain dict reaches the default _write branch of Encoder.push).  The
result is represented by the packed value tree. -/
def structureToBytes (s : SchemaFields) (vals : PyFields) : Option PyVal :=
  match to_dict s vals with
  | some d => pack (.dict d)
  | Option.none => Option.none

/-- Serializable.from_bytes for a Structure class: decode the byte array
(yielding the packed tree) and run from_dict on it; a non-dict top level
fails (input_dict.get raises AttributeError). -/
def structureFromBytes (s : SchemaFields) (w : PyVal) : Option PyFields :=
  match w with
  | .dict es => from_dict s es
  | _ => Option.none

/-! ## Serializable equality (serialize.py, Serializable.__eq__ / __ne__) -/

/-- A Serializable object: a Structure instance or a MutableValue wrapper
holding a raw value. -/
inductive SerializableObj where
  | structObj (s : SchemaFields) (vals : PyFields)
  | mutableObj (v : PyVal)

/-- Encoder.push dispatch for a raw value (MutableValue.encode pushes
self.value): CEnum goes through push_int, str and bytes through
push_string (the bytes payload is decoded to text and re-packed, the
identity on a UTF-8 payload), bytearray through push_bytes, everything
else through the default packb write. -/
def encoderPush (v : PyVal) : Option PyVal :=
  match v with
  | .enumv n => some (.int n)
  | .str s => some (.bytes s)
  | .bytes s => some (.bytes s)
  | .bytearr s => some (.bytes s)
  | w => pack w

/-- Serializable.to_bytes: dispatch on the object kind. -/
def serializableToBytes : SerializableObj → Option PyVal
  | .structObj s vals => structureToBytes s vals
  | .mutableObj v => encoderPush v

/-- The right operand of == on a Serializable: another Serializable or
any non-Serializable Python object. -/
inductive PyOperand where
  | serObj (o : SerializableObj)
  | plain (v : PyVal)

/-- Serializable.__eq__: False for a non-Serializable operand (before any
encoding work), otherwise comparison of the two to_bytes() results; a
to_bytes failure propagates (modelled as Option.none). -/
def serializableEq (a : SerializableObj) : PyOperand → Option Bool
  | .plain _ => some false
  | .serObj b =>
    match serializableToBytes a, serializableToBytes b with
    | some x, some y => some (pvEqB x y)
    | _, _ => Option.none

/-- Serializable.__ne__: not self.__eq__(other). -/
def serializableNe (a : SerializableObj) (o : PyOperand) : Option Bool :=
  (serializableEq a o).map (fun b => !b)

/-! ## _utils.py: the CEnum codec -/

/-- CEnum.__repr__: the symbolic name from the value table when known,
else the ClassName(value) fallback (%r of an int is its decimal form). -/
def cenumRepr (clsName : String) (values : List (Int × String)) (n : Int) : String :=
  match values.lookup n with
  | some name => clsName ++ "." ++ name
  | Option.none => clsName ++ "(" ++ toString n ++ ")"

/-- CEnum.__eq__: int(self) == int(other). -/
def cenumEqInt (a b : Int) : Bool := a == b

/-- CEnum.__ne__: int(self) != int(other). -/
def cenumNeInt (a b : Int) : Bool := a != b

/-- CEnum.__lt__: int(self) < int(other). -/
def cenumLtInt (a b : Int) : Bool := decide (a < b)

/-- CEnum.__le__: int(self) <= int(other). -/
def cenumLeInt (a b : Int) : Bool := decide (a ≤ b)

/-- CEnum.__gt__: int(self) > int(other). -/
def cenumGtInt (a b : Int) : Bool := decide (a > b)

/-- CEnum.__ge__: int(self) >= int(other). -/
def cenumGeInt (a b : Int) : Bool := decide (a ≥ b)

/-- The _values_ table of the TemporalContrast enumeration
(_temporal_contrast_data.py). -/
def temporalContrastValues : List (Int × String) :=
  [(-1, "NEGATIVE"), (0, "NONE"), (1, "POSITIVE")]

/-! ## senscord_property_utils.py: the property key composer -/

/-- str.find(ch): index of the first occurrence, -1 when absent. -/
def pyFind (s : String) (c : Char) : Int :=
  match s.toList.findIdx? (· = c) with
  | some i => (i : Int)
  | Option.none => -1

/-- str.rfind(ch): index of the last occurrence, -1 when absent. -/
def pyRFind (s : String) (c : Char) : Int :=
  match s.toList.reverse.findIdx? (· = c) with
  | some i => (s.length : Int) - 1 - i
  | Option.none => -1

/-- s[a:b] for 0 <= a, b (the only slices the composer takes). -/
def pySlice (s : String) (a b : Nat) : String :=
  String.mk ((s.toList.drop a).take (b - a))

/-- Ordered-dict assignment d[k] = v: update in place when the key
exists (keeping its position), else append. -/
def dictSetStr (d : List (String × String)) (k v : String) : List (String × String) :=
  match d with
  | [] => [(k, v)]
  | (k', v') :: r => if k' = k then (k, v) :: r else (k', v') :: dictSetStr r k v

/-- str.split(sep) for a one-character separator (Python splits an empty
string into [""]). -/
def pySplitChar (c : Char) : List Char → List (List Char)
  | [] => [[]]
  | x :: r =>
    match pySplitChar c r with
    | [] => [[]]
    | g :: gs => if x = c then [] :: g :: gs else (x :: g) :: gs

/-- str.split on a String. -/
def pySplit (s : String) (c : Char) : List String :=
  (pySplitChar c s.toList).map String.mk

/-- PropertyUtilsParam._parse_append_info: the block between the last
opening bracket and the first closing bracket, split on commas; each
piece with an equals sign stores key-including-the-equals to the
remainder. -/
def parseAppendInfo (key : String) (d0 : List (String × String)) : List (String × String) :=
  let last_spos := pyRFind key '['
  let first_epos := pyFind key ']'
  let append := pySlice key (last_spos + 1).toNat first_epos.toNat
  (pySplit append ',').foldl
    (fun d piece =>
      let pos := pyFind piece '='
      if pos != -1 then
        dictSetStr d (pySlice piece 0 (pos + 1).toNat) (pySlice piece (pos + 1).toNat piece.length)
      else d)
    d0

/-- PropertyUtilsParam._parse_key (together with the append-info dict it
fills): no brackets means the whole key; a closing bracket without an
opening one, a closing bracket not at the end, or an opening bracket at
position 0 are invalid and give the empty key; otherwise the base is the
text before the first opening bracket and the append info is parsed. -/
def parseKey (key : String) : String × List (String × String) :=
  let spos := pyFind key '['
  let epos := pyRFind key ']'
  if spos = -1 then
    if epos = -1 then (key, [])
    else ("", [])
  else if epos ≠ (key.length : Int) - 1 then ("", [])
  else if spos = 0 then ("", [])
  else (pySlice key 0 spos.toNat, parseAppendInfo key [])

/-- PropertyUtilsParam state: the append-info dict and the parsed key. -/
structure PropertyUtilsParam where
  append_dict : List (String × String)
  key : String
  deriving DecidableEq, Repr

/-- PropertyUtilsParam.__init__ (a bytes key is decoded as UTF-8, the
identity on the text). -/
def propertyUtilsParamInit (key : String) : PropertyUtilsParam :=
  { append_dict := (parseKey key).2, key := (parseKey key).1 }

/-- PropertyUtilsParam.set_channel_id: store str(value) under "ch=". -/
def paramSetChannelId (p : PropertyUtilsParam) (value : Int) : PropertyUtilsParam :=
  { p with append_dict := dictSetStr p.append_dict "ch=" (toString value) }

/-- PropertyUtilsParam.get_full_key: empty for an empty key, else
key + "[" + comma-joined entries (each as dict key followed by value)
+ "]". -/
def getFullKey (p : PropertyUtilsParam) : String :=
  if p.key = "" then ""
  else p.key ++ "[" ++ String.intercalate "," (p.append_dict.map (fun kv => kv.1 ++ kv.2)) ++ "]"

/-- The channel-id argument of PropertyUtils.set_channel_id: a Python int
(bool included, being an int subclass) or any non-int object. -/
inductive PyIntArg where
  | intArg (n : Int)
  | nonIntArg

/-- PropertyUtils.set_channel_id(key, channel_id): empty result for a
falsy key, a non-int channel id, or a channel id outside [0, 2^32 - 1];
otherwise parse the key, set the channel id and compose the full key. -/
def propertyUtilsSetChannelId (key : String) (channel_id : PyIntArg) : String :=
  if key = "" then ""
  else
    match channel_id with
    | .nonIntArg => ""
    | .intArg n =>
      if n < 0 || n > 0xFFFFFFFF then ""
      else getFullKey (paramSetChannelId (propertyUtilsParamInit key) n)

/-! ## Mutation footprint of _encode / _decode

The only in-place mutations in Structure._encode / Structure._decode are
the element re-assignments of the list branch (value[index] = ...).  The
functions below compute the state of the value argument after a call:
list values become the encoded / decoded element list (same object,
mutated in place); dict handling builds a new dict but passes the
original key and value objects to the recursion, so their post-state is
the recursive post-state; encoding a Structure value runs to_dict, which
encodes each attribute object (the attribute still refers to it
afterwards); decoding into a structure class runs from_dict on the
argument dict, which decodes the value object found for each truthy
field; every other branch leaves the argument untouched.  A call that
raises leaves a prefix of a list mutated; the post-state on the error
path is not modelled (the theorems below use it only on succeeding
calls). -/

/-- The field class type a given attribute name has in a schema. -/
def fieldCT : SchemaFields → List Nat → Option CT
  | [], _ => Option.none
  | (name, ct) :: rest, n => if name = n then some ct else fieldCT rest n

mutual
def encodeArgAfter (v : PyVal) (ct : CT) : PyVal :=
  match ctSplit ct with
  | Option.none => v
  | some (cur, rest) =>
    match cur with
    | .listC =>
      match v with
      | .list xs =>
        match structure_encodeList xs rest with
        | some ys => .list ys
        | Option.none => .list xs
      | _ => v
    | .dictC =>
      match dictRestSplit rest with
      | Option.none => v
      | some (kt, vt) =>
        match v with
        | .dict es => .dict (encodeArgAfterPairs es kt vt)
        | _ => v
    | _ =>
      match v with
      | .struct s vals => .struct s (encodeArgAfterFields s vals)
      | w => w
termination_by sizeOf v

def encodeArgAfterPairs (es : PyPairs) (kt vt : CT) : PyPairs :=
  match es with
  | [] => []
  | (k, v) :: r => (encodeArgAfter k kt, encodeArgAfter v vt) :: encodeArgAfterPairs r kt vt
termination_by sizeOf es

def encodeArgAfterFields (s : SchemaFields) (vals : PyFields) : PyFields :=
  match vals with
  | [] => []
  | (n, v) :: r =>
    match fieldCT s n with
    | some ct => (n, encodeArgAfter v ct) :: encodeArgAfterFields s r
    | Option.none => (n, v) :: encodeArgAfterFields s r
termination_by sizeOf vals
end

/-- The schema field whose from_dict lookup decodes the object stored at
a given dict key: the field's str name when the value found under it is
truthy, else its bytes name when the value found under that is truthy
(and that field's value is decoded at all). -/
def fieldUsing : SchemaFields → PyPairs → PyVal → Option CT
  | [], _, _ => Option.none
  | (name, ct) :: rest, full, k =>
    let v0 := (dictGet full (.str name)).getD .none
    let v1 := (dictGet full (.bytes name)).getD .none
    if truthy v0 && pyKeyEq k (.str name) then some ct
    else if !truthy v0 && truthy v1 && pyKeyEq k (.bytes name) then some ct
    else fieldUsing rest full k

mutual
def decodeArgAfter (v : PyVal) (ct : CT) : PyVal :=
  match ctSplit ct with
  | Option.none => v
  | some (cur, rest) =>
    match cur with
    | .listC =>
      match v with
      | .list xs =>
        match structure_decodeList xs rest with
        | some ys => .list ys
        | Option.none => .list xs
      | _ => v
    | .dictC =>
      match dictRestSplit rest with
      | Option.none => v
      | some (kt, vt) =>
        match v with
        | .dict es => .dict (decodeArgAfterPairs es kt vt)
        | _ => v
    | .structC s =>
      match v with
      | .dict es => .dict (decodeArgAfterStruct s es es)
      | _ => v
    | _ => v
termination_by sizeOf v

def decodeArgAfterPairs (es : PyPairs) (kt vt : CT) : PyPairs :=
  match es with
  | [] => []
  | (k, v) :: r => (decodeArgAfter k kt, decodeArgAfter v vt) :: decodeArgAfterPairs r kt vt
termination_by sizeOf es

def decodeArgAfterStruct (s : SchemaFields) (full : PyPairs) : PyPairs → PyPairs
  | [] => []
  | (k, v) :: r =>
    match fieldUsing s full k with
    | some ct => (k, decodeArgAfter v ct) :: decodeArgAfterStruct s full r
    | Option.none => (k, v) :: decodeArgAfterStruct s full r
termination_by rem => sizeOf rem
end

/-! A value tree without list nodes (the shape on which the encoder and
decoder leave their argument unchanged). -/
mutual
def listFree : PyVal → Bool
  | .list _ => false
  | .dict es => listFreePairs es
  | .struct _ vals => listFreeFields vals
  | _ => true
def listFreePairs : PyPairs → Bool
  | [] => true
  | (k, v) :: r => listFree k && listFree v && listFreePairs r
def listFreeFields : PyFields → Bool
  | [] => true
  | (_, v) :: r => listFree v && listFreeFields r
end

/-! ## Conformance

confB v ct states that v is a representative value of the field type ct
as the package uses it: scalars of the declared wrapper kind (a String
field may hold text or bytes), enums as wrapped or raw integers,
structure instances of the declared class (with well-formed distinct
field names), sequences (list, elem) and mappings (dict, (keyT, valT))
with atomic element types, and arbitrary msgpack-encodable trees for
Array-instance class types. -/

mutual
def plainB : PyVal → Bool
  | .none => true
  | .int _ => true
  | .bool _ => true
  | .float _ => true
  | .str _ => true
  | .bytes _ => true
  | .bytearr _ => true
  | .list xs => plainListB xs
  | .dict es => plainPairsB es
  | .struct _ _ => false
  | .enumv _ => false
def plainListB : List PyVal → Bool
  | [] => true
  | x :: r => plainB x && plainListB r
def plainPairsB : PyPairs → Bool
  | [] => true
  | (k, v) :: r => plainB k && plainB v && plainPairsB r
end

/-- The single class types that occur as sequence elements and mapping
keys/values in the package's schemas. -/
def atomB : CT → Bool
  | .intC => true
  | .floatC => true
  | .boolC => true
  | .strC => true
  | .byteArrC => true
  | .enumC _ => true
  | .structC _ => true
  | .arrC => true
  | _ => false

/-- Distinct declared field names. -/
def schemaNodupB (s : SchemaFields) : Bool := decide (schemaNames s).Nodup

mutual
def confB (v : PyVal) (ct : CT) : Bool :=
  match ct, v with
  | .intC, .int _ => true
  | .floatC, .float _ => true
  | .boolC, .bool _ => true
  | .strC, .str _ => true
  | .strC, .bytes _ => true
  | .byteArrC, .bytearr _ => true
  | .enumC _, .enumv _ => true
  | .enumC _, .int _ => true
  | .structC s, .struct s2 vals => sfEqB s2 s && schemaNodupB s && confFieldsB s vals
  | .arrC, w => plainB w
  | .tupC [.listC, e], .list xs => atomB e && confListB xs e
  | .tupC [.dictC, .tupC [kt, vt]], .dict es => atomB kt && atomB vt && confPairsB es kt vt
  | _, _ => false
termination_by (sizeOf ct, sizeOf v)
decreasing_by
· exact Prod.Lex.left _ _ (by simp only [CT.structC.sizeOf_spec]; omega)
· exact Prod.Lex.left _ _ (by
    simp only [CT.tupC.sizeOf_spec, List.cons.sizeOf_spec, List.nil.sizeOf_spec]
    omega)
· exact Prod.Lex.left _ _ (by
    simp only [CT.tupC.sizeOf_spec, List.cons.sizeOf_spec, List.nil.sizeOf_spec]
    omega)

def confFieldsB (s : SchemaFields) (vals : PyFields) : Bool :=
  match s, vals with
  | [], [] => true
  | (n, ct) :: r, (m, v) :: w => n == m && confB v ct && confFieldsB r w
  | _, _ => false
termination_by (sizeOf s, sizeOf vals)
decreasing_by
· exact Prod.Lex.left _ _ (by simp only [List.cons.sizeOf_spec, Prod.mk.sizeOf_spec]; omega)
· exact Prod.Lex.left _ _ (by simp only [List.cons.sizeOf_spec, Prod.mk.sizeOf_spec]; omega)

def confListB (xs : List PyVal) (e : CT) : Bool :=
  match xs with
  | [] => true
  | x :: r => confB x e && confListB r e
termination_by (sizeOf e, sizeOf xs)
decreasing_by
· exact Prod.Lex.right _ (by simp only [List.cons.sizeOf_spec]; omega)
· exact Prod.Lex.right _ (by simp only [List.cons.sizeOf_spec]; omega)

def confPairsB (es : PyPairs) (kt vt : CT) : Bool :=
  match es with
  | [] => true
  | (k, v) :: r => confB k kt && confB v vt && confPairsB r kt vt
termination_by (sizeOf kt + sizeOf vt, sizeOf es)
decreasing_by
· have hvt : 0 < sizeOf vt := by cases vt <;> simp_arith
  exact Prod.Lex.left _ _ (by omega)
· have hkt : 0 < sizeOf kt := by cases kt <;> simp_arith
  exact Prod.Lex.left _ _ (by omega)
· exact Prod.Lex.right _ (by simp only [List.cons.sizeOf_spec, Prod.mk.sizeOf_spec]; omega)
end

/-! ## Round-trip properties -/

/-- The wire-map entry list for packed field values: each field name as a
bytes key (what packb with use_bin_type=False makes of a str key). -/
def bkeys (ws : List (List Nat × PyVal)) : PyPairs :=
  ws.map (fun p => (PyVal.bytes p.1, p.2))

/-- The round-trip property of one value under one class type: encoding
(and packing) succeeds with a packed value w that is a msgpack fixed
point; re-encoding w itself reproduces w (the path from_dict takes for a
falsy w, which it assigns without decoding); and decoding w then
re-encoding the result reproduces w. -/
def RTP (v : PyVal) (ct : CT) : Prop :=
  ∃ w, (structure_encode v ct).bind pack = some w ∧
    pack w = some w ∧
    (truthy w = false → (structure_encode w ct).bind pack = some w) ∧
    ∃ d, structure_decode w ct = some d ∧ (structure_encode d ct).bind pack = some w

/-- The round-trip property of a whole instance against its schema: the
packed field dict has the schema's names as bytes keys with fixed-point
packed values, from_dict rebuilds an instance from it, and that instance
encodes back to the same packed dict. -/
def RTF (s : SchemaFields) (vals : PyFields) : Prop :=
  ∃ ws, (to_dict s vals).bind (fun d => pack (.dict d)) = some (.dict (bkeys ws)) ∧
    ws.map Prod.fst = schemaNames s ∧
    (∀ p ∈ ws, pack p.2 = some p.2) ∧
    ∃ vals', from_dict s (bkeys ws) = some vals' ∧
      (to_dict s vals').bind (fun d => pack (.dict d)) = some (.dict (bkeys ws))

/-- The round-trip property of a sequence of elements under the element
class type the source passes down ((E,) - the tail tuple of (list, E)). -/
def RTL (xs : List PyVal) (e : CT) : Prop :=
  ∃ ws, (structure_encodeList xs (.tupC [e])).bind packList = some ws ∧
    packList ws = some ws ∧
    ∃ ds, structure_decodeList ws (.tupC [e]) = some ds ∧
      (structure_encodeList ds (.tupC [e])).bind packList = some ws

/-- The round-trip property of mapping entries under key/value class
types. -/
def RTPairs (es : PyPairs) (kt vt : CT) : Prop :=
  ∃ ws, (structure_encodePairs es kt vt).bind packPairs = some ws ∧
    packPairs ws = some ws ∧
    ∃ ds, structure_decodePairs ws kt vt = some ds ∧
      (structure_encodePairs ds kt vt).bind packPairs = some ws

/-- A nine-field demonstration schema covering every field kind the
package declares: int, enum, nested structure, sequence, mapping, Array,
bytearray, str and float. -/
def demoSchema : SchemaFields :=
  [([97], CT.intC),
   ([98], CT.enumC [0, 1]),
   ([99], CT.structC [([100], CT.boolC)]),
   ([101], CT.tupC [CT.listC, CT.intC]),
   ([102], CT.tupC [CT.dictC, CT.tupC [CT.intC, CT.strC]]),
   ([103], CT.arrC),
   ([104], CT.byteArrC),
   ([105], CT.strC),
   ([106], CT.floatC)]

/-- A conformant instance of demoSchema, with falsy values (0, empty
text, float 0.0) among the fields. -/
def demoVals : PyFields :=
  [([97], .int 0),
   ([98], .enumv 5),
   ([99], .struct [([100], CT.boolC)] [([100], .bool true)]),
   ([101], .list [.int 2, .int 3]),
   ([102], .dict [(.int 1, .str [120])]),
   ([103], .dict [(.bool true, .list [.none])]),
   ([104], .bytearr [7]),
   ([105], .str []),
   ([106], .float 0)]

/-! # Theorems -/

/-! ## Event-stream parser: iteration, truncation, bounds -/

theorem eventArrayNextN_cursor (buf : Buffer) (addr n : Nat) :
    ∀ (k c : Nat), c + k ≤ n →
      eventArrayNextN buf k { addr := addr, count := n, cursor := c } =
        { addr := addr, count := n, cursor := c + k } := by
  intro k
  induction k with
  | zero => intro c _; simp [eventArrayNextN]
  | succ k ih =>
    intro c h
    rw [eventArrayNextN]
    rw [show eventArrayNext buf { addr := addr, count := n, cursor := c } =
      .ok (readEvent buf (addr + TEMPORAL_CONTRAST_EVENT_SIZE * c),
           { addr := addr, count := n, cursor := c + 1 }) from by
        rw [eventArrayNext, if_neg (show ¬(n ≤ c) by omega)]]
    show eventArrayNextN buf k { addr := addr, count := n, cursor := c + 1 } =
      { addr := addr, count := n, cursor := c + (k + 1) }
    rw [ih (c + 1) (by omega)]
    congr 1
    omega

/-- C9: iteration over a TemporalContrastEventArray is one-shot:
__iter__ returns the array itself without resetting the cursor, so after
count calls to __next__ starting from a fresh view the cursor sits at
count and every further iteration raises StopIteration immediately,
while integer indexing and slicing ignore the cursor entirely. -/
theorem c9_one_shot_iteration (buf : Buffer) (addr n : Nat) :
    eventArrayIter (eventArrayNextN buf n (eventArrayInit addr n)) =
      eventArrayNextN buf n (eventArrayInit addr n) ∧
    eventArrayNextN buf n (eventArrayInit addr n) =
      { addr := addr, count := n, cursor := n } ∧
    eventArrayNext buf (eventArrayIter (eventArrayNextN buf n (eventArrayInit addr n))) =
      .error () ∧
    (∀ (c c' : Nat) (i : Int),
      eventArrayGetInt buf { addr := addr, count := n, cursor := c } i =
        eventArrayGetInt buf { addr := addr, count := n, cursor := c' } i) ∧
    (∀ (c c' : Nat) (o1 o2 o3 : Option Int),
      eventArrayGetSlice buf { addr := addr, count := n, cursor := c } o1 o2 o3 =
        eventArrayGetSlice buf { addr := addr, count := n, cursor := c' } o1 o2 o3) := by
  have hdrain : eventArrayNextN buf n (eventArrayInit addr n) =
      { addr := addr, count := n, cursor := n } := by
    have := eventArrayNextN_cursor buf addr n n 0 (by omega)
    simpa [eventArrayInit] using this
  refine ⟨rfl, hdrain, ?_, ?_, ?_⟩
  · rw [eventArrayIter, hdrain, eventArrayNext]
    rw [if_pos (by simp)]
  · intro c c' i
    rfl
  · intro c c' o1 o2 o3
    rfl

/-- C3: for a buffer of length L whose stream header declares count = 1
and whose single bundle header declares an eventCount with
24 + 6 * eventCount > L - 16, from_bytes fails with a BufferError and
the TemporalContrastData object keeps count = 0 and bundles = None. -/
theorem c3_truncated_bundle (buf : Buffer) (L ec : Nat)
    (hL : 16 ≤ L) (hcount : readU32 buf 0 = 1) (hec : readU32 buf 24 = ec)
    (htrunc : ((L : Int)) - 16 < 24 + 6 * (ec : Int)) :
    (∃ msg, tcFromBytes buf (L : Int) = .error msg) ∧
    tcLoad tcInit buf (L : Int) = tcInit := by
  have hts : ∃ m, timesliceInit buf TEMPORAL_CONTRAST_DATA_HEADER
      ((L : Int) - ((TEMPORAL_CONTRAST_DATA_HEADER : Nat) : Int)) = .error m := by
    rw [timesliceInit]
    by_cases hhdr : (L : Int) - 16 < 24
    · rw [if_pos (by
        simp only [TEMPORAL_CONTRAST_DATA_HEADER, TEMPORAL_CONTRAST_EVENTS_TIMESLICE_HEADER]
        push_cast
        omega)]
      exact ⟨_, rfl⟩
    · rw [if_neg (by
        simp only [TEMPORAL_CONTRAST_DATA_HEADER, TEMPORAL_CONTRAST_EVENTS_TIMESLICE_HEADER]
        push_cast
        omega)]
      simp only [TEMPORAL_CONTRAST_DATA_HEADER, TEMPORAL_CONTRAST_EVENTS_TIMESLICE_HEADER,
        TEMPORAL_CONTRAST_EVENT_SIZE]
      rw [show (16 : Nat) + 8 = 24 from rfl, hec]
      rw [if_pos (by push_cast; omega)]
      exact ⟨_, rfl⟩
  obtain ⟨m, hm⟩ := hts
  have hstep : parseBundles buf (L : Int) (0 + 1) TEMPORAL_CONTRAST_DATA_HEADER = .error m := by
    rw [parseBundles, hm]
  have hp1 : parseBundles buf (L : Int) 1 TEMPORAL_CONTRAST_DATA_HEADER = .error m := hstep
  have hparse : ∃ msg, tcFromBytes buf (L : Int) = .error msg := by
    rw [tcFromBytes]
    rw [if_neg (by
      simp only [TEMPORAL_CONTRAST_DATA_HEADER]
      push_cast
      omega)]
    simp only [hcount, hp1]
    exact ⟨m, rfl⟩
  obtain ⟨m2, hm2⟩ := hparse
  exact ⟨⟨m2, hm2⟩, by simp [tcLoad, hm2]⟩

/-- Closed witness for c3_truncated_bundle at a concrete 40-byte buffer:
count = 1 at offset 0, eventCount = 1 at offset 24, and
24 + 6 > 40 - 16. -/
theorem c3_truncated_bundle_witness :
    (∃ msg, tcFromBytes
        ([1, 0, 0, 0] ++ List.replicate 12 0 ++ List.replicate 8 0 ++
          [1, 0, 0, 0] ++ List.replicate 12 0) (40 : Int) = .error msg) ∧
    tcLoad tcInit
        ([1, 0, 0, 0] ++ List.replicate 12 0 ++ List.replicate 8 0 ++
          [1, 0, 0, 0] ++ List.replicate 12 0) (40 : Int) = tcInit :=
  c3_truncated_bundle _ 40 1 (by decide) (by decide) (by decide) (by decide)

theorem timesliceInit_ok_facts (buf : Buffer) (addr : Nat) (size : Int)
    (ts : TemporalContrastEventsTimeslice)
    (h : timesliceInit buf addr size = .ok ts) :
    ts.data_size = ts.count * 6 + 24 ∧ (ts.data_size : Int) ≤ size ∧
    ts.events.addr = addr + 24 ∧ ts.events.count = ts.count := by
  rw [timesliceInit] at h
  by_cases h1 : size < ((TEMPORAL_CONTRAST_EVENTS_TIMESLICE_HEADER : Nat) : Int)
  · rw [if_pos h1] at h
    exact absurd h (by simp)
  · rw [if_neg h1] at h
    by_cases h2 : size < ((readU32 buf (addr + 8) * TEMPORAL_CONTRAST_EVENT_SIZE +
        TEMPORAL_CONTRAST_EVENTS_TIMESLICE_HEADER : Nat) : Int)
    · rw [if_pos h2] at h
      exact absurd h (by simp)
    · rw [if_neg h2] at h
      simp only [Except.ok.injEq] at h
      subst h
      refine ⟨by simp [TEMPORAL_CONTRAST_EVENTS_TIMESLICE_HEADER,
          TEMPORAL_CONTRAST_EVENT_SIZE, Nat.mul_comm], ?_,
        by simp [TEMPORAL_CONTRAST_EVENTS_TIMESLICE_HEADER, eventArrayInit],
        by simp [eventArrayInit]⟩
      simp only [TEMPORAL_CONTRAST_EVENTS_TIMESLICE_HEADER, TEMPORAL_CONTRAST_EVENT_SIZE] at h2 ⊢
      push_cast at h2 ⊢
      omega

theorem parseBundles_bound (buf : Buffer) (size : Int) :
    ∀ (n offset : Nat) (bs : List TemporalContrastEventsTimeslice) (fin : Nat),
      (offset : Int) ≤ size →
      parseBundles buf size n offset = .ok (bs, fin) →
      (fin : Int) ≤ size ∧
      (fin : Int) = (offset : Int) + ((bs.map (fun b => (b.data_size : Int))).sum) ∧
      ∀ b ∈ bs, (b.events.addr : Int) + 6 * b.count ≤ size ∧
        b.data_size = 24 + 6 * b.count := by
  intro n
  induction n with
  | zero =>
    intro offset bs fin hoff h
    rw [parseBundles] at h
    simp only [Except.ok.injEq, Prod.mk.injEq] at h
    obtain ⟨rfl, rfl⟩ := h
    simp [hoff]
  | succ n ih =>
    intro offset bs fin hoff h
    rw [parseBundles] at h
    cases hts : timesliceInit buf offset (size - (offset : Int)) with
    | error e => simp only [hts] at h; exact absurd h (by simp)
    | ok ts =>
      simp only [hts] at h
      cases hrec : parseBundles buf size n (offset + ts.data_size) with
      | error e => simp only [hrec] at h; exact absurd h (by simp)
      | ok pr =>
        obtain ⟨rest, fin'⟩ := pr
        simp only [hrec] at h
        simp only [Except.ok.injEq, Prod.mk.injEq] at h
        obtain ⟨rfl, rfl⟩ := h
        obtain ⟨hds, hfit, haddr, hcnt⟩ := timesliceInit_ok_facts buf offset _ ts hts
        have hoff' : ((offset + ts.data_size : Nat) : Int) ≤ size := by push_cast; omega
        obtain ⟨h1, h2, h3⟩ := ih (offset + ts.data_size) rest fin' hoff' hrec
        refine ⟨h1, ?_, ?_⟩
        · rw [h2]
          simp only [List.map_cons, List.sum_cons]
          push_cast
          omega
        · intro b hb
          rcases List.mem_cons.mp hb with rfl | hb2
          · exact ⟨by rw [haddr]; push_cast; omega, by omega⟩
          · exact h3 b hb2

/-- C4: on every successful from_bytes parse, 16 plus the sum of the
parsed bundle sizes (24 + 6 * count each) fits within the supplied size,
and each bundle's record region was validated to lie within the buffer
(its events base + 6 * count is below the supplied size) before any
record view was exposed. -/
theorem c4_success_bounds (buf : Buffer) (size : Int) (tc : TemporalContrastData)
    (bs : List TemporalContrastEventsTimeslice)
    (h : tcFromBytes buf size = .ok tc) (hbs : tc.bundles = some bs) :
    16 + ((bs.map (fun b => 24 + 6 * (b.count : Int))).sum) ≤ size ∧
    ∀ b ∈ bs, (b.events.addr : Int) + 6 * b.count ≤ size ∧
      b.data_size = 24 + 6 * b.count := by
  rw [tcFromBytes] at h
  by_cases h16 : size < ((TEMPORAL_CONTRAST_DATA_HEADER : Nat) : Int)
  · rw [if_pos h16] at h
    exact absurd h (by simp)
  · rw [if_neg h16] at h
    cases hp : parseBundles buf size (readU32 buf 0) TEMPORAL_CONTRAST_DATA_HEADER with
    | error e => simp only [hp] at h; exact absurd h (by simp)
    | ok pr =>
      obtain ⟨bs0, fin⟩ := pr
      simp only [hp, Except.ok.injEq] at h
      subst h
      simp only [Option.some.injEq] at hbs
      subst hbs
      have h16' : ((TEMPORAL_CONTRAST_DATA_HEADER : Nat) : Int) ≤ size := by omega
      obtain ⟨hfin, hsum, hper⟩ :=
        parseBundles_bound buf size (readU32 buf 0) TEMPORAL_CONTRAST_DATA_HEADER bs0 fin h16' hp
      constructor
      · have hmapeq : bs0.map (fun b => (b.data_size : Int)) =
            bs0.map (fun b => 24 + 6 * (b.count : Int)) := by
          apply List.map_congr_left
          intro b hb
          rw [(hper b hb).2]
          push_cast
          ring
        rw [hmapeq] at hsum
        simp only [TEMPORAL_CONTRAST_DATA_HEADER] at hsum
        push_cast at hsum
        omega
      · exact hper

/-- Closed witness for c4_success_bounds: the 16-byte all-zero buffer
parses to zero bundles. -/
theorem c4_success_bounds_witness :
    16 + (((([] : List TemporalContrastEventsTimeslice)).map
        (fun b => 24 + 6 * (b.count : Int))).sum) ≤ (16 : Int) ∧
    ∀ b ∈ ([] : List TemporalContrastEventsTimeslice),
      (b.events.addr : Int) + 6 * b.count ≤ (16 : Int) ∧
      b.data_size = 24 + 6 * b.count :=
  c4_success_bounds (List.replicate 16 0) 16 { count := 0, bundles := some [] } []
    rfl rfl

theorem rangeListUp_bounds :
    ∀ (fuel : Nat) (b e : Int) (s : Nat), (e - b).toNat ≤ fuel →
      ∀ i ∈ rangeListUp b e s, b ≤ i ∧ i < e := by
  intro fuel
  induction fuel with
  | zero =>
    intro b e s hf i hi
    rw [rangeListUp, if_neg (by omega)] at hi
    exact absurd hi (by simp)
  | succ fuel ih =>
    intro b e s hf i hi
    rw [rangeListUp] at hi
    by_cases hc : b < e ∧ 0 < s
    · rw [if_pos hc] at hi
      rcases List.mem_cons.mp hi with rfl | hi2
      · exact ⟨le_refl _, hc.1⟩
      · have h2 := ih (b + s) e s (by omega) i hi2
        have : (0 : Int) < s := by exact_mod_cast hc.2
        exact ⟨by omega, h2.2⟩
    · rw [if_neg hc] at hi
      exact absurd hi (by simp)

theorem rangeListDown_bounds :
    ∀ (fuel : Nat) (b e : Int) (s : Nat), (b - e).toNat ≤ fuel →
      ∀ i ∈ rangeListDown b e s, e < i ∧ i ≤ b := by
  intro fuel
  induction fuel with
  | zero =>
    intro b e s hf i hi
    rw [rangeListDown, if_neg (by omega)] at hi
    exact absurd hi (by simp)
  | succ fuel ih =>
    intro b e s hf i hi
    rw [rangeListDown] at hi
    by_cases hc : e < b ∧ 0 < s
    · rw [if_pos hc] at hi
      rcases List.mem_cons.mp hi with rfl | hi2
      · exact ⟨hc.1, le_refl _⟩
      · have h2 := ih (b - s) e s (by omega) i hi2
        have : (0 : Int) < s := by exact_mod_cast hc.2
        exact ⟨h2.1, by omega⟩
    · rw [if_neg hc] at hi
      exact absurd hi (by simp)

theorem sliceClamp_bounds (len lower upper dflt : Int) (o : Option Int)
    (hl : lower ≤ dflt) (hu : dflt ≤ upper) (hlu : lower ≤ upper)
    (hup : len - 1 ≤ upper) (hlow : lower ≤ 0) :
    lower ≤ sliceClamp len lower upper dflt o ∧
    sliceClamp len lower upper dflt o ≤ upper := by
  rcases o with _ | x
  · exact ⟨hl, hu⟩
  · simp only [sliceClamp]
    split_ifs with hx
    · simp only [le_max_iff, max_le_iff]
      omega
    · simp only [le_min_iff, min_le_iff]
      omega

/-- The clamping of slice.indices: the computed endpoints lie in
[0, n] for a positive step and in [-1, n-1] for a negative step. -/
theorem sliceIndices_clamp (o1 o2 o3 : Option Int) (n : Nat) :
    (0 < (sliceIndices o1 o2 o3 n).2.2 →
      0 ≤ (sliceIndices o1 o2 o3 n).1 ∧ (sliceIndices o1 o2 o3 n).1 ≤ n ∧
      0 ≤ (sliceIndices o1 o2 o3 n).2.1 ∧ (sliceIndices o1 o2 o3 n).2.1 ≤ n) ∧
    ((sliceIndices o1 o2 o3 n).2.2 < 0 →
      -1 ≤ (sliceIndices o1 o2 o3 n).1 ∧ (sliceIndices o1 o2 o3 n).1 ≤ (n : Int) - 1 ∧
      -1 ≤ (sliceIndices o1 o2 o3 n).2.1 ∧ (sliceIndices o1 o2 o3 n).2.1 ≤ (n : Int) - 1) := by
  constructor
  · intro hpos
    have hpos' : (0 : Int) < o3.getD 1 := hpos
    have hneg : ¬ (o3.getD 1 < 0) := by omega
    simp only [sliceIndices, if_neg hneg]
    have h1 := sliceClamp_bounds n 0 n 0 o1 (le_refl _) (by positivity) (by positivity)
      (by omega) (le_refl _)
    have h2 := sliceClamp_bounds n 0 n n o2 (by positivity) (le_refl _) (by positivity)
      (by omega) (le_refl _)
    exact ⟨h1.1, h1.2, h2.1, h2.2⟩
  · intro hneg
    have hneg' : o3.getD 1 < 0 := hneg
    simp only [sliceIndices, if_pos hneg']
    have h1 := sliceClamp_bounds n (-1) ((n : Int) - 1) ((n : Int) - 1) o1
      (by omega) (le_refl _) (by omega) (le_refl _) (by omega)
    have h2 := sliceClamp_bounds n (-1) ((n : Int) - 1) (-1) o2
      (le_refl _) (by omega) (by omega) (le_refl _) (by omega)
    exact ⟨h1.1, h1.2, h2.1, h2.2⟩

/-- All indices a slice access generates are clamped to [0, count). -/
theorem sliceRange_bounds (o1 o2 o3 : Option Int) (n : Nat) (h3 : o3 ≠ some 0) :
    ∀ i ∈ (rangeList (sliceIndices o1 o2 o3 n).1 (sliceIndices o1 o2 o3 n).2.1
        (sliceIndices o1 o2 o3 n).2.2), 0 ≤ i ∧ i < n := by
  intro i hi
  obtain ⟨hpos, hneg⟩ := sliceIndices_clamp o1 o2 o3 n
  set b := (sliceIndices o1 o2 o3 n).1 with hb
  set e := (sliceIndices o1 o2 o3 n).2.1 with he
  set st := (sliceIndices o1 o2 o3 n).2.2 with hst
  have hst0 : st ≠ 0 := by
    have hrfl : st = o3.getD 1 := rfl
    rcases o3 with _ | s3
    · rw [hrfl]
      simp
    · rw [hrfl]
      simp only [Option.getD_some]
      intro hcon
      exact h3 (by rw [hcon])
  rw [rangeList] at hi
  by_cases hsgn : 0 < st
  · rw [if_pos hsgn] at hi
    obtain ⟨h1, h2, h3', h4⟩ := hpos hsgn
    have := rangeListUp_bounds (e - b).toNat b e st.toNat (le_refl _) i hi
    omega
  · rw [if_neg hsgn] at hi
    have hneg2 : st < 0 := by omega
    obtain ⟨h1, h2, h3', h4⟩ := hneg hneg2
    have := rangeListDown_bounds (b - e).toNat b e (-st).toNat (le_refl _) i hi
    omega

/-- C8: a parsed bundle view reports len = eventCount; integer indexing
inside [0, count) reads the record at byte offset base + 24 + 6*i;
integer indexing outside [0, count), negative indices included, raises
IndexError; and slicing returns a finite sub-sequence whose indices are
clamped to [0, count), empty for an empty bundle. -/
theorem c8_bundle_view_access (buf : Buffer) (addr : Nat) (size : Int)
    (ts : TemporalContrastEventsTimeslice)
    (h : timesliceInit buf addr size = .ok ts) :
    timesliceLen ts = ts.count ∧
    ts.events.count = ts.count ∧
    (∀ i : Int, 0 ≤ i → i < ts.count →
      eventArrayGetInt buf ts.events i =
        .ok (readEvent buf (addr + 24 + 6 * i.toNat))) ∧
    (∀ i : Int, i < 0 ∨ (ts.count : Int) ≤ i →
      eventArrayGetInt buf ts.events i =
        .error ("Index(" ++ toString i ++ ") is out of range.")) ∧
    (∀ o1 o2 o3 : Option Int, o3 ≠ some 0 →
      ∃ idxs : List Int,
        eventArrayGetSlice buf ts.events o1 o2 o3 =
          .ok (idxs.map (fun i => readEvent buf (addr + 24 + 6 * i.toNat))) ∧
        (∀ i ∈ idxs, 0 ≤ i ∧ i < ts.count) ∧
        (ts.count = 0 → idxs = [])) := by
  obtain ⟨hds, hfit, haddr, hcnt⟩ := timesliceInit_ok_facts buf addr size ts h
  refine ⟨rfl, hcnt, ?_, ?_, ?_⟩
  · intro i h0 hn
    rw [eventArrayGetInt, if_neg (by push_cast [hcnt]; omega)]
    rw [haddr]
    simp [TEMPORAL_CONTRAST_EVENT_SIZE, Nat.add_assoc]
  · intro i hout
    rw [eventArrayGetInt, if_pos (by push_cast [hcnt]; omega)]
  · intro o1 o2 o3 h3
    refine ⟨rangeList (sliceIndices o1 o2 o3 ts.events.count).1
      (sliceIndices o1 o2 o3 ts.events.count).2.1
      (sliceIndices o1 o2 o3 ts.events.count).2.2, ?_, ?_, ?_⟩
    · rw [eventArrayGetSlice, if_neg h3]
      rw [haddr]
      simp [TEMPORAL_CONTRAST_EVENT_SIZE, Nat.add_assoc]
    · intro i hi
      have := sliceRange_bounds o1 o2 o3 ts.events.count h3 i hi
      rw [hcnt] at this
      exact this
    · intro hzero
      have hmem := sliceRange_bounds o1 o2 o3 ts.events.count h3
      rw [hcnt, hzero] at hmem
      rcases hlist : rangeList (sliceIndices o1 o2 o3 ts.events.count).1
          (sliceIndices o1 o2 o3 ts.events.count).2.1
          (sliceIndices o1 o2 o3 ts.events.count).2.2 with _ | ⟨x, xs⟩
      · rfl
      · have := hmem x (by rw [hcnt, hzero] at hlist; rw [hlist]; exact List.mem_cons_self x xs)
        omega

/-- Closed witness for c8_bundle_view_access at a 24-byte zero buffer
(one empty bundle). -/
theorem c8_bundle_view_access_witness :
    timesliceLen (TemporalContrastEventsTimeslice.mk 0 0 24
        (TemporalContrastEventArray.mk 24 0 0)) =
      (TemporalContrastEventsTimeslice.mk 0 0 24
        (TemporalContrastEventArray.mk 24 0 0)).count ∧
    (TemporalContrastEventsTimeslice.mk 0 0 24
        (TemporalContrastEventArray.mk 24 0 0)).events.count =
      (TemporalContrastEventsTimeslice.mk 0 0 24
        (TemporalContrastEventArray.mk 24 0 0)).count ∧
    (∀ i : Int, 0 ≤ i →
      i < (TemporalContrastEventsTimeslice.mk 0 0 24
        (TemporalContrastEventArray.mk 24 0 0)).count →
      eventArrayGetInt (List.replicate 24 0)
          (TemporalContrastEventsTimeslice.mk 0 0 24
            (TemporalContrastEventArray.mk 24 0 0)).events i =
        .ok (readEvent (List.replicate 24 0) (0 + 24 + 6 * i.toNat))) ∧
    (∀ i : Int, i < 0 ∨
        (((TemporalContrastEventsTimeslice.mk 0 0 24
          (TemporalContrastEventArray.mk 24 0 0)).count : Nat) : Int) ≤ i →
      eventArrayGetInt (List.replicate 24 0)
          (TemporalContrastEventsTimeslice.mk 0 0 24
            (TemporalContrastEventArray.mk 24 0 0)).events i =
        .error ("Index(" ++ toString i ++ ") is out of range.")) ∧
    (∀ o1 o2 o3 : Option Int, o3 ≠ some 0 →
      ∃ idxs : List Int,
        eventArrayGetSlice (List.replicate 24 0)
            (TemporalContrastEventsTimeslice.mk 0 0 24
              (TemporalContrastEventArray.mk 24 0 0)).events o1 o2 o3 =
          .ok (idxs.map (fun i => readEvent (List.replicate 24 0) (0 + 24 + 6 * i.toNat))) ∧
        (∀ i ∈ idxs, 0 ≤ i ∧
          i < (TemporalContrastEventsTimeslice.mk 0 0 24
            (TemporalContrastEventArray.mk 24 0 0)).count) ∧
        ((TemporalContrastEventsTimeslice.mk 0 0 24
          (TemporalContrastEventArray.mk 24 0 0)).count = 0 → idxs = [])) :=
  c8_bundle_view_access (List.replicate 24 0) 0 24
    (TemporalContrastEventsTimeslice.mk 0 0 24 (TemporalContrastEventArray.mk 24 0 0)) rfl

/-! ## Property key composer -/

/-- C5: set_channel_id appends a channel attribute to a bare key, updates
the ch= entry in place (no duplicate) when applied again to its own
output, returns the empty result on the malformed key "[bad", and
returns the empty result for every channel id that is not an integer in
[0, 4294967295]. -/
theorem c5_property_key_composer :
    propertyUtilsSetChannelId "stream_key_property" (.intArg 5) =
      "stream_key_property[ch=5]" ∧
    propertyUtilsSetChannelId "stream_key_property[ch=5]" (.intArg 9) =
      "stream_key_property[ch=9]" ∧
    (∀ arg, propertyUtilsSetChannelId "[bad" arg = "") ∧
    (∀ (key : String) (n : Int), n < 0 ∨ 4294967295 < n →
      propertyUtilsSetChannelId key (.intArg n) = "") ∧
    (∀ key : String, propertyUtilsSetChannelId key .nonIntArg = "") := by
  refine ⟨by decide, by decide, ?_, ?_, ?_⟩
  · intro arg
    rcases arg with n | _
    · rw [propertyUtilsSetChannelId]
      rw [if_neg (by decide)]
      by_cases hr : n < 0 || n > 0xFFFFFFFF
      · rw [if_pos hr]
      · rw [if_neg hr]
        rw [show propertyUtilsParamInit "[bad" = { append_dict := [], key := "" } from by decide]
        rw [paramSetChannelId, getFullKey]
        rw [if_pos rfl]
    · rw [propertyUtilsSetChannelId]
      rw [if_neg (by decide)]
  · intro key n hn
    rw [propertyUtilsSetChannelId]
    by_cases hk : key = ""
    · rw [if_pos hk]
    · rw [if_neg hk]
      rw [if_pos (by
        rcases hn with hn | hn
        · simp only [Bool.or_eq_true, decide_eq_true_eq]
          left
          omega
        · simp only [Bool.or_eq_true, decide_eq_true_eq]
          right
          omega)]
  · intro key
    rw [propertyUtilsSetChannelId]
    by_cases hk : key = ""
    · rw [if_pos hk]
    · rw [if_neg hk]

/-- Closed witness for c5_property_key_composer (the part with a
hypothesis, applied at key "x" and channel id -1). -/
theorem c5_property_key_composer_witness :
    propertyUtilsSetChannelId "x" (.intArg (-1)) = "" :=
  (c5_property_key_composer.2.2.2.1) "x" (-1) (Or.inl (by decide))

/-! ## Enum codec -/

theorem lookup_eq_none_of_not_mem (values : List (Int × String)) (n : Int)
    (h : n ∉ values.map Prod.fst) : values.lookup n = Option.none := by
  induction values with
  | nil => rfl
  | cons p r ih =>
    obtain ⟨k, v⟩ := p
    simp only [List.map_cons, List.mem_cons] at h
    push_neg at h
    rw [List.lookup]
    have hbeq : (n == k) = false := by
      simp only [beq_eq_false_iff_ne, ne_eq]
      exact h.1
    rw [hbeq]
    exact ih h.2

/-- C7: decoding an enum-typed field never fails on an unknown integer:
_decode leaves the wire integer unchanged for any enum class type, from
from_dict the field receives the integer itself (both for truthy and for
falsy-but-present wire values); an unknown integer differs from every
table constant under the CEnum equality, CEnum comparisons coincide with
integer equality and ordering, and repr renders an unknown value in the
Type(N) fallback form. -/
theorem c7_enum_decode_permissive (values : List (Int × String)) (clsName : String)
    (n : Int) (name : List Nat) (vs : List Int)
    (hunknown : n ∉ values.map Prod.fst) :
    structure_decode (.int n) (.enumC vs) = some (.int n) ∧
    from_dict [(name, .enumC vs)] [(.bytes name, .int n)] =
      some [(name, .int n)] ∧
    (∀ c ∈ values.map Prod.fst, cenumEqInt n c = false ∧ cenumEqInt c n = false) ∧
    (∀ a b : Int, (cenumEqInt a b = true ↔ a = b) ∧ (cenumNeInt a b = true ↔ a ≠ b) ∧
      (cenumLtInt a b = true ↔ a < b) ∧ (cenumLeInt a b = true ↔ a ≤ b)) ∧
    cenumRepr clsName values n = clsName ++ "(" ++ toString n ++ ")" := by
  have hdec : structure_decode (.int n) (.enumC vs) = some (.int n) := by
    simp [structure_decode, ctSplit]
  refine ⟨hdec, ?_, ?_, ?_, ?_⟩
  · by_cases hz : n = 0
    · subst hz
      simp [from_dict, dictGet, pyKeyEq, truthy]
    · simp [from_dict, dictGet, pyKeyEq, truthy, hz, hdec]
  · intro c hc
    have hne : n ≠ c := fun h => hunknown (h ▸ hc)
    constructor
    · simp [cenumEqInt, hne]
    · simp only [cenumEqInt, beq_eq_false_iff_ne, ne_eq]
      exact fun hc => hne hc.symm
  · intro a b
    refine ⟨by simp [cenumEqInt], by simp [cenumNeInt], by simp [cenumLtInt], by simp [cenumLeInt]⟩
  · rw [cenumRepr, lookup_eq_none_of_not_mem values n hunknown]

/-- Closed witness for c7_enum_decode_permissive: the TemporalContrast
table (values -1, 0, 1) and the unknown wire integer 5. -/
theorem c7_enum_decode_permissive_witness :
    structure_decode (.int 5) (.enumC [-1, 0, 1]) = some (.int 5) ∧
    from_dict [([112], .enumC [-1, 0, 1])] [(.bytes [112], .int 5)] =
      some [([112], .int 5)] ∧
    (∀ c ∈ temporalContrastValues.map Prod.fst,
      cenumEqInt 5 c = false ∧ cenumEqInt c 5 = false) ∧
    (∀ a b : Int, (cenumEqInt a b = true ↔ a = b) ∧ (cenumNeInt a b = true ↔ a ≠ b) ∧
      (cenumLtInt a b = true ↔ a < b) ∧ (cenumLeInt a b = true ↔ a ≤ b)) ∧
    cenumRepr "TemporalContrast" temporalContrastValues 5 =
      "TemporalContrast" ++ "(" ++ toString (5 : Int) ++ ")" :=
  c7_enum_decode_permissive temporalContrastValues "TemporalContrast" 5 [112] [-1, 0, 1]
    (by decide)

/-! ## Equality soundness -/

mutual
theorem ctEqB_iff : ∀ a b : CT, ctEqB a b = true ↔ a = b := by
  intro a b
  cases a <;> cases b
  case structC.structC s t =>
    simp only [ctEqB, CT.structC.injEq]
    exact sfEqB_iff s t
  case tupC.tupC x y =>
    simp only [ctEqB, CT.tupC.injEq]
    exact ctlEqB_iff x y
  all_goals simp [ctEqB]
termination_by a _ => sizeOf a

theorem ctlEqB_iff : ∀ a b : List CT, ctlEqB a b = true ↔ a = b := by
  intro a b
  cases a with
  | nil => cases b <;> simp [ctlEqB]
  | cons x r =>
    cases b with
    | nil => simp [ctlEqB]
    | cons y t =>
      simp only [ctlEqB, Bool.and_eq_true, List.cons.injEq]
      rw [ctEqB_iff x y, ctlEqB_iff r t]
termination_by a _ => sizeOf a

theorem sfEqB_iff : ∀ a b : SchemaFields, sfEqB a b = true ↔ a = b := by
  intro a b
  cases a with
  | nil => cases b <;> simp [sfEqB]
  | cons p r =>
    obtain ⟨n, x⟩ := p
    cases b with
    | nil => simp [sfEqB]
    | cons q t =>
      obtain ⟨m, y⟩ := q
      simp only [sfEqB, Bool.and_eq_true, List.cons.injEq, Prod.mk.injEq, beq_iff_eq]
      rw [ctEqB_iff x y, sfEqB_iff r t]
termination_by a _ => sizeOf a
end

mutual
theorem pvEqB_iff : ∀ a b : PyVal, pvEqB a b = true ↔ a = b := by
  intro a b
  cases a <;> cases b
  case list.list xs ys =>
    simp only [pvEqB, PyVal.list.injEq]
    exact plEqB_iff xs ys
  case dict.dict xs ys =>
    simp only [pvEqB, PyVal.dict.injEq]
    exact ppEqB_iff xs ys
  case struct.struct s vals t wals =>
    simp only [pvEqB, Bool.and_eq_true, PyVal.struct.injEq]
    rw [sfEqB_iff s t, pfEqB_iff vals wals]
  all_goals simp [pvEqB]
termination_by a _ => sizeOf a

theorem plEqB_iff : ∀ a b : List PyVal, plEqB a b = true ↔ a = b := by
  intro a b
  cases a with
  | nil => cases b <;> simp [plEqB]
  | cons x r =>
    cases b with
    | nil => simp [plEqB]
    | cons y t =>
      simp only [plEqB, Bool.and_eq_true, List.cons.injEq]
      rw [pvEqB_iff x y, plEqB_iff r t]
termination_by a _ => sizeOf a

theorem ppEqB_iff : ∀ a b : PyPairs, ppEqB a b = true ↔ a = b := by
  intro a b
  cases a with
  | nil => cases b <;> simp [ppEqB]
  | cons p r =>
    obtain ⟨k, v⟩ := p
    cases b with
    | nil => simp [ppEqB]
    | cons q t =>
      obtain ⟨l, w⟩ := q
      simp only [ppEqB, Bool.and_eq_true, List.cons.injEq, Prod.mk.injEq]
      rw [pvEqB_iff k l, pvEqB_iff v w, ppEqB_iff r t]
termination_by a _ => sizeOf a

theorem pfEqB_iff : ∀ a b : PyFields, pfEqB a b = true ↔ a = b := by
  intro a b
  cases a with
  | nil => cases b <;> simp [pfEqB]
  | cons p r =>
    obtain ⟨n, v⟩ := p
    cases b with
    | nil => simp [pfEqB]
    | cons q t =>
      obtain ⟨m, w⟩ := q
      simp only [pfEqB, Bool.and_eq_true, List.cons.injEq, Prod.mk.injEq, beq_iff_eq]
      rw [pvEqB_iff v w, pfEqB_iff r t]
termination_by a _ => sizeOf a
end

/-! ## Serializable equality -/

/-- C10: Serializable.__eq__ is equality of encodings: for Serializable
operands whose to_bytes succeeds, a == b holds exactly when the two
to_bytes results coincide; for every non-Serializable operand, __eq__
yields False and __ne__ yields True without encoding anything. -/
theorem c10_serializable_eq (a b : SerializableObj) (x y : PyVal)
    (ha : serializableToBytes a = some x) (hb : serializableToBytes b = some y) :
    (serializableEq a (.serObj b) = some true ↔ x = y) ∧
    (∀ v, serializableEq a (.plain v) = some false) ∧
    (∀ v, serializableNe a (.plain v) = some true) := by
  refine ⟨?_, fun v => rfl, fun v => rfl⟩
  rw [serializableEq, ha, hb]
  simp only [Option.some.injEq]
  exact pvEqB_iff x y

/-- Closed witness for c10_serializable_eq: an Integer wrapper holding 5
compared against a structure with one int field holding 5. -/
theorem c10_serializable_eq_witness :
    (serializableEq (.mutableObj (.int 5))
        (.serObj (.structObj [([97], CT.intC)] [([97], .int 5)])) = some true ↔
      PyVal.int 5 = .dict [(.bytes [97], .int 5)]) ∧
    (∀ v, serializableEq (.mutableObj (.int 5)) (.plain v) = some false) ∧
    (∀ v, serializableNe (.mutableObj (.int 5)) (.plain v) = some true) :=
  c10_serializable_eq (.mutableObj (.int 5))
    (.structObj [([97], CT.intC)] [([97], .int 5)])
    (.int 5) (.dict [(.bytes [97], .int 5)])
    (by simp [serializableToBytes, encoderPush, pack])
    (by simp [serializableToBytes, structureToBytes, to_dict, fieldGet, structure_encode,
      ctSplit, pack, packPairs])

/-! ## The falsy-field decode conflation (from_dict) -/

/-- C1: evaluation of Structure.from_dict at the failing input.  With the
schema _fields_ = [('id', Integer)] (field name 'id' is UTF-8 [105, 100]),
a str-keyed map whose 'id' entry is the falsy integer 0 decodes the field
to None - the falsy found value triggers the bytes-name retry, whose miss
overwrites it - which is exactly the result for a map without the key, so
the two are conflated; a truthy entry under the same key is preserved.
The claim that a present falsy value is decoded to that value and kept
distinct from an absent key is therefore violated by the code. -/
theorem c1_falsy_present_conflated_with_absent :
    from_dict [([105, 100], CT.intC)] [(.str [105, 100], .int 0)] =
      some [([105, 100], .none)] ∧
    from_dict [([105, 100], CT.intC)] [] = some [([105, 100], .none)] ∧
    from_dict [([105, 100], CT.intC)] [(.str [105, 100], .int 1)] =
      some [([105, 100], .int 1)] := by
  refine ⟨?_, ?_, ?_⟩
  · simp [from_dict, dictGet, pyKeyEq, truthy]
  · simp [from_dict, dictGet, truthy]
  · simp [from_dict, dictGet, pyKeyEq, truthy, structure_decode, ctSplit]

/-! ## Mutation footprint of the codec -/

/-- Any list-free argument tree is left unchanged by the encoder walk,
at every depth bound (proved by induction on the size bound, jointly for
values, dict pairs and structure fields). -/
theorem encodeListFreeAux : ∀ (N : Nat),
    (∀ (v : PyVal) (ct : CT), sizeOf v < N → listFree v = true →
        encodeArgAfter v ct = v) ∧
    (∀ (es : PyPairs) (kt vt : CT), sizeOf es < N → listFreePairs es = true →
        encodeArgAfterPairs es kt vt = es) ∧
    (∀ (s : SchemaFields) (vals : PyFields), sizeOf vals < N →
        listFreeFields vals = true → encodeArgAfterFields s vals = vals) := by
  intro N
  induction N with
  | zero =>
    exact ⟨fun v ct hle _ => absurd hle (Nat.not_lt_zero _),
           fun es kt vt hle _ => absurd hle (Nat.not_lt_zero _),
           fun s vals hle _ => absurd hle (Nat.not_lt_zero _)⟩
  | succ N ih =>
    refine ⟨?_, ?_, ?_⟩
    · intro v ct hle h
      cases v
      case struct s2 vals =>
        rw [encodeArgAfter.eq_1]
        rcases hs : ctSplit ct with _ | ⟨cur, rest⟩
        · rfl
        · dsimp only
          have hrec : encodeArgAfterFields s2 vals = vals :=
            ih.2.2 s2 vals (by simp only [PyVal.struct.sizeOf_spec] at hle; omega) h
          cases cur
          all_goals try dsimp only
          all_goals try rfl
          all_goals try (rcases hr : dictRestSplit rest with _ | ⟨kt, vt⟩ <;> rfl)
          all_goals rw [hrec]
      case dict es =>
        rw [encodeArgAfter.eq_2 _ _ (by intro a b hh; cases hh)]
        rcases hs : ctSplit ct with _ | ⟨cur, rest⟩
        · rfl
        · dsimp only
          have hb : sizeOf es < N := by
            simp only [PyVal.dict.sizeOf_spec] at hle
            omega
          cases cur
          all_goals try dsimp only
          all_goals try rfl
          all_goals (rcases hr : dictRestSplit rest with _ | ⟨kt, vt⟩
                     · rfl
                     · exact congrArg PyVal.dict (ih.2.1 es kt vt hb h))
      case list xs => simp [listFree] at h
      all_goals rw [encodeArgAfter.eq_2 _ _ (by intro a b hh; cases hh)]
      all_goals rcases hs : ctSplit ct with _ | ⟨cur, rest⟩
      all_goals try rfl
      all_goals try dsimp only
      all_goals cases cur
      all_goals try dsimp only
      all_goals try rfl
      all_goals (rcases hr : dictRestSplit rest with _ | ⟨kt, vt⟩ <;> rfl)
    · intro es kt vt hle h
      cases es with
      | nil => rw [encodeArgAfterPairs]
      | cons p r =>
        obtain ⟨k, v⟩ := p
        simp only [listFreePairs, Bool.and_eq_true] at h
        have hsz : sizeOf k < N ∧ sizeOf v < N ∧ sizeOf r < N := by
          simp only [List.cons.sizeOf_spec, Prod.mk.sizeOf_spec] at hle
          omega
        rw [encodeArgAfterPairs, ih.1 k kt hsz.1 h.1.1, ih.1 v vt hsz.2.1 h.1.2,
          ih.2.1 r kt vt hsz.2.2 h.2]
    · intro s vals hle h
      cases vals with
      | nil => rw [encodeArgAfterFields]
      | cons p r =>
        obtain ⟨n, v⟩ := p
        simp only [listFreeFields, Bool.and_eq_true] at h
        have hsz : sizeOf v < N ∧ sizeOf r < N := by
          simp only [List.cons.sizeOf_spec, Prod.mk.sizeOf_spec] at hle
          omega
        rw [encodeArgAfterFields]
        rcases hct : fieldCT s n with _ | ct
        · dsimp only
          rw [ih.2.2 s r hsz.2 h.2]
        · dsimp only
          rw [ih.1 v ct hsz.1 h.1, ih.2.2 s r hsz.2 h.2]

theorem encodeArgAfter_listFree (v : PyVal) (ct : CT) (h : listFree v = true) :
    encodeArgAfter v ct = v :=
  (encodeListFreeAux (sizeOf v + 1)).1 v ct (Nat.lt_succ_self _) h

/-- Any list-free argument tree is left unchanged by the decoder walk,
at every depth bound. -/
theorem decodeListFreeAux : ∀ (N : Nat),
    (∀ (v : PyVal) (ct : CT), sizeOf v < N → listFree v = true →
        decodeArgAfter v ct = v) ∧
    (∀ (es : PyPairs) (kt vt : CT), sizeOf es < N → listFreePairs es = true →
        decodeArgAfterPairs es kt vt = es) ∧
    (∀ (s : SchemaFields) (full rem : PyPairs), sizeOf rem < N →
        listFreePairs rem = true → decodeArgAfterStruct s full rem = rem) := by
  intro N
  induction N with
  | zero =>
    exact ⟨fun v ct hle _ => absurd hle (Nat.not_lt_zero _),
           fun es kt vt hle _ => absurd hle (Nat.not_lt_zero _),
           fun s full rem hle _ => absurd hle (Nat.not_lt_zero _)⟩
  | succ N ih =>
    refine ⟨?_, ?_, ?_⟩
    · intro v ct hle h
      rw [decodeArgAfter.eq_1]
      rcases hs : ctSplit ct with _ | ⟨cur, rest⟩
      · rfl
      · dsimp only
        cases v
        case dict es =>
          have hb : sizeOf es < N := by
            simp only [PyVal.dict.sizeOf_spec] at hle
            omega
          cases cur
          all_goals try dsimp only
          all_goals try rfl
          all_goals try exact congrArg PyVal.dict (ih.2.2 _ es es hb h)
          all_goals (rcases hr : dictRestSplit rest with _ | ⟨kt, vt⟩
                     · rfl
                     · exact congrArg PyVal.dict (ih.2.1 es kt vt hb h))
        case list xs => simp [listFree] at h
        all_goals cases cur
        all_goals try dsimp only
        all_goals try rfl
        all_goals (rcases hr : dictRestSplit rest with _ | ⟨kt, vt⟩ <;> rfl)
    · intro es kt vt hle h
      cases es with
      | nil => rw [decodeArgAfterPairs]
      | cons p r =>
        obtain ⟨k, v⟩ := p
        simp only [listFreePairs, Bool.and_eq_true] at h
        have hsz : sizeOf k < N ∧ sizeOf v < N ∧ sizeOf r < N := by
          simp only [List.cons.sizeOf_spec, Prod.mk.sizeOf_spec] at hle
          omega
        rw [decodeArgAfterPairs, ih.1 k kt hsz.1 h.1.1, ih.1 v vt hsz.2.1 h.1.2,
          ih.2.1 r kt vt hsz.2.2 h.2]
    · intro s full rem hle h
      cases rem with
      | nil => rw [decodeArgAfterStruct]
      | cons p r =>
        obtain ⟨k, v⟩ := p
        simp only [listFreePairs, Bool.and_eq_true] at h
        have hsz : sizeOf v < N ∧ sizeOf r < N := by
          simp only [List.cons.sizeOf_spec, Prod.mk.sizeOf_spec] at hle
          omega
        rw [decodeArgAfterStruct]
        rcases hct : fieldUsing s full k with _ | ct
        · dsimp only
          rw [ih.2.2 s full r hsz.2 h.2]
        · dsimp only
          rw [ih.1 v ct hsz.1 h.1.2, ih.2.2 s full r hsz.2 h.2]

theorem decodeArgAfter_listFree (v : PyVal) (ct : CT) (h : listFree v = true) :
    decodeArgAfter v ct = v :=
  (decodeListFreeAux (sizeOf v + 1)).1 v ct (Nat.lt_succ_self _) h

/-- C6 counterexample: Structure._encode mutates its list argument in
place.  Encoding a list holding one nested structure (schema
[('a', Integer)], value a = 1) under the sequence class type
(list, that structure class) leaves the argument list holding the dict
produced by to_dict instead of the structure instance: the value tree
changed. -/
theorem c6_encoder_mutates_list_argument :
    encodeArgAfter (.list [.struct [([97], CT.intC)] [([97], .int 1)]])
        (.tupC [.listC, .structC [([97], CT.intC)]]) ≠
      .list [.struct [([97], CT.intC)] [([97], .int 1)]] := by
  have heval : encodeArgAfter (.list [.struct [([97], CT.intC)] [([97], .int 1)]])
      (.tupC [.listC, .structC [([97], CT.intC)]]) =
      .list [.dict [(.str [97], .int 1)]] := by
    rw [encodeArgAfter.eq_2 _ _ (by intro a b hh; cases hh)]
    simp [ctSplit, structure_encodeList, structure_encode, to_dict, fieldGet]
  rw [heval]
  simp

/-- C6 as amended: the only in-place mutation in Structure._encode /
Structure._decode is the element-wise re-assignment of list values; on
any argument tree containing no list node, both leave the argument
unchanged. -/
theorem c6_mutation_scope (v : PyVal) (ct : CT) (h : listFree v = true) :
    encodeArgAfter v ct = v ∧ decodeArgAfter v ct = v :=
  ⟨encodeArgAfter_listFree v ct h, decodeArgAfter_listFree v ct h⟩

/-- Closed witness for c6_mutation_scope: a list-free structure value. -/
theorem c6_mutation_scope_witness :
    encodeArgAfter (.struct [([97], CT.intC)] [([97], .int 1)]) (.structC [([97], CT.intC)]) =
      .struct [([97], CT.intC)] [([97], .int 1)] ∧
    decodeArgAfter (.struct [([97], CT.intC)] [([97], .int 1)]) (.structC [([97], CT.intC)]) =
      .struct [([97], CT.intC)] [([97], .int 1)] :=
  c6_mutation_scope (.struct [([97], CT.intC)] [([97], .int 1)]) (.structC [([97], CT.intC)])
    (by simp [listFree, listFreeFields])

/-! ## Round-trip helper lemmas -/

theorem encode_arrC_plain : ∀ v : PyVal, plainB v = true →
    structure_encode v .arrC = some v := by
  intro v hv
  cases v
  case struct s vals => simp [plainB] at hv
  case enumv n => simp [plainB] at hv
  all_goals simp [structure_encode, ctSplit]

theorem decode_arrC : ∀ v : PyVal, structure_decode v .arrC = some v := by
  intro v
  cases v <;> simp [structure_decode, ctSplit]

theorem tup1_encode : ∀ (v : PyVal) (e : CT), atomB e = true →
    structure_encode v (.tupC [e]) = structure_encode v e := by
  intro v e he
  cases e <;> simp [atomB] at he <;> cases v <;> simp [structure_encode, ctSplit]

theorem tup1_decode : ∀ (v : PyVal) (e : CT), atomB e = true →
    structure_decode v (.tupC [e]) = structure_decode v e := by
  intro v e he
  cases e <;> simp [atomB] at he <;> cases v <;> simp [structure_decode, ctSplit]

theorem dictGet_bkeys_str : ∀ (ws : List (List Nat × PyVal)) (m : List Nat),
    dictGet (bkeys ws) (.str m) = Option.none := by
  intro ws m
  induction ws with
  | nil => rfl
  | cons p r ih =>
    rw [show bkeys (p :: r) = (PyVal.bytes p.1, p.2) :: bkeys r from rfl, dictGet,
      if_neg (show ¬(pyKeyEq (PyVal.bytes p.1) (.str m) = true) from Bool.false_ne_true)]
    exact ih

theorem to_dict_cons : ∀ (name : List Nat) (ct : CT) (rest : SchemaFields) (vals : PyFields),
    to_dict ((name, ct) :: rest) vals =
      (match fieldGet vals name with
       | Option.none => Option.none
       | some x =>
         match structure_encode x ct, to_dict rest vals with
         | some w, some tail => some ((PyVal.str name, w) :: tail)
         | _, _ => Option.none) := by
  intro name ct rest vals
  rw [to_dict.eq_2]
  split
  case _ heq => rw [heq]
  case _ x heq => rw [heq]

theorem to_dict_skip : ∀ (rest : SchemaFields) (n : List Nat) (v : PyVal) (w : PyFields),
    n ∉ schemaNames rest → to_dict rest ((n, v) :: w) = to_dict rest w := by
  intro rest
  induction rest with
  | nil => intro n v w _; rw [to_dict.eq_1, to_dict.eq_1]
  | cons p r ih =>
    obtain ⟨m, ct⟩ := p
    intro n v w hn
    simp only [schemaNames, List.map_cons, List.mem_cons, not_or] at hn
    obtain ⟨hnm, hr⟩ := hn
    rw [to_dict_cons, to_dict_cons,
      show fieldGet ((n, v) :: w) m = fieldGet w m from by rw [fieldGet, if_neg hnm]]
    rcases hg : fieldGet w m with _ | x
    · rfl
    · dsimp only
      rw [ih n v w (by simp only [schemaNames]; exact hr)]

theorem from_dict_skip : ∀ (rest : SchemaFields) (n : List Nat) (w0 : PyVal) (es : PyPairs),
    n ∉ schemaNames rest →
    from_dict rest ((PyVal.bytes n, w0) :: es) = from_dict rest es := by
  intro rest
  induction rest with
  | nil => intro n w0 es _; rw [from_dict.eq_1, from_dict.eq_1]
  | cons p r ih =>
    obtain ⟨m, ct⟩ := p
    intro n w0 es hn
    simp only [schemaNames, List.map_cons, List.mem_cons, not_or] at hn
    obtain ⟨hnm, hr⟩ := hn
    have h1 : dictGet ((PyVal.bytes n, w0) :: es) (.str m) = dictGet es (.str m) := by
      rw [dictGet,
        if_neg (show ¬(pyKeyEq (PyVal.bytes n) (.str m) = true) from Bool.false_ne_true)]
    have h2 : dictGet ((PyVal.bytes n, w0) :: es) (.bytes m) = dictGet es (.bytes m) := by
      rw [dictGet, if_neg (show ¬(pyKeyEq (PyVal.bytes n) (PyVal.bytes m) = true) from
        fun hcon => hnm (eq_of_beq hcon))]
    rw [from_dict.eq_2, from_dict.eq_2, h1, h2,
      ih n w0 es (by simp only [schemaNames]; exact hr)]

theorem packPairs_bkeys : ∀ ws : List (List Nat × PyVal),
    (∀ p ∈ ws, pack p.2 = some p.2) → packPairs (bkeys ws) = some (bkeys ws) := by
  intro ws
  induction ws with
  | nil => intro _; rfl
  | cons p r ih =>
    intro h
    obtain ⟨k, v⟩ := p
    have hv : pack v = some v := h (k, v) (by simp)
    have hrest := ih (fun q hq => h q (List.mem_cons_of_mem _ hq))
    rw [show bkeys ((k, v) :: r) = (PyVal.bytes k, v) :: bkeys r from rfl, packPairs]
    simp [pack, hv, hrest]

/-- msgpack pack succeeds on plain trees, its output is plain, and it is
idempotent there (packed trees hold no str, struct or enum). -/
theorem plainPackAux : ∀ (N : Nat),
    (∀ v : PyVal, sizeOf v < N → plainB v = true →
        ∃ pw, pack v = some pw ∧ plainB pw = true ∧ pack pw = some pw) ∧
    (∀ xs : List PyVal, sizeOf xs < N → plainListB xs = true →
        ∃ pws, packList xs = some pws ∧ plainListB pws = true ∧ packList pws = some pws) ∧
    (∀ es : PyPairs, sizeOf es < N → plainPairsB es = true →
        ∃ pes, packPairs es = some pes ∧ plainPairsB pes = true ∧ packPairs pes = some pes) := by
  intro N
  induction N with
  | zero =>
    exact ⟨fun v h _ => absurd h (Nat.not_lt_zero _),
           fun xs h _ => absurd h (Nat.not_lt_zero _),
           fun es h _ => absurd h (Nat.not_lt_zero _)⟩
  | succ N ih =>
    refine ⟨?_, ?_, ?_⟩
    · intro v hle hp
      cases v
      case list xs =>
        obtain ⟨pws, h1, h2, h3⟩ :=
          ih.2.1 xs (by simp only [PyVal.list.sizeOf_spec] at hle; omega) hp
        exact ⟨.list pws, by simp [pack, h1], h2, by simp [pack, h3]⟩
      case dict es =>
        obtain ⟨pes, h1, h2, h3⟩ :=
          ih.2.2 es (by simp only [PyVal.dict.sizeOf_spec] at hle; omega) hp
        exact ⟨.dict pes, by simp [pack, h1], h2, by simp [pack, h3]⟩
      case struct s vals => simp [plainB] at hp
      case enumv n => simp [plainB] at hp
      all_goals exact ⟨_, rfl, rfl, rfl⟩
    · intro xs hle hp
      cases xs with
      | nil => exact ⟨[], rfl, rfl, rfl⟩
      | cons x r =>
        simp only [plainListB, Bool.and_eq_true] at hp
        obtain ⟨pw, e1, e2, e3⟩ :=
          ih.1 x (by simp only [List.cons.sizeOf_spec] at hle; omega) hp.1
        obtain ⟨prs, f1, f2, f3⟩ :=
          ih.2.1 r (by simp only [List.cons.sizeOf_spec] at hle; omega) hp.2
        exact ⟨pw :: prs, by simp [packList, e1, f1],
          by simp [plainListB, e2, f2], by simp [packList, e3, f3]⟩
    · intro es hle hp
      cases es with
      | nil => exact ⟨[], rfl, rfl, rfl⟩
      | cons p r =>
        obtain ⟨k, v⟩ := p
        simp only [plainPairsB, Bool.and_eq_true] at hp
        obtain ⟨pk, e1, e2, e3⟩ :=
          ih.1 k (by simp only [List.cons.sizeOf_spec, Prod.mk.sizeOf_spec] at hle; omega)
            hp.1.1
        obtain ⟨pv, g1, g2, g3⟩ :=
          ih.1 v (by simp only [List.cons.sizeOf_spec, Prod.mk.sizeOf_spec] at hle; omega)
            hp.1.2
        obtain ⟨prs, f1, f2, f3⟩ :=
          ih.2.2 r (by simp only [List.cons.sizeOf_spec, Prod.mk.sizeOf_spec] at hle; omega)
            hp.2
        exact ⟨(pk, pv) :: prs, by simp [packPairs, e1, g1, f1],
          by simp [plainPairsB, e2, g2, f2], by simp [packPairs, e3, g3, f3]⟩

/-- The joint round-trip induction: every conformant value of a field
class type satisfies RTP, every conformant instance of a schema with
distinct field names satisfies RTF, and likewise for sequence elements
and mapping entries (induction on a bound of the value size). -/
theorem rtAux : ∀ (N : Nat),
    (∀ (v : PyVal) (ct : CT), sizeOf v < N → confB v ct = true → RTP v ct) ∧
    (∀ (s : SchemaFields) (vals : PyFields), sizeOf vals < N → schemaNodupB s = true →
        confFieldsB s vals = true → RTF s vals) ∧
    (∀ (xs : List PyVal) (e : CT), sizeOf xs < N → atomB e = true →
        confListB xs e = true → RTL xs e) ∧
    (∀ (es : PyPairs) (kt vt : CT), sizeOf es < N →
        confPairsB es kt vt = true → RTPairs es kt vt) := by
  intro N
  induction N with
  | zero =>
    exact ⟨fun v ct h _ => absurd h (Nat.not_lt_zero _),
           fun s vals h _ _ => absurd h (Nat.not_lt_zero _),
           fun xs e h _ _ => absurd h (Nat.not_lt_zero _),
           fun es kt vt h _ => absurd h (Nat.not_lt_zero _)⟩
  | succ N ih =>
    refine ⟨?_, ?_, ?_, ?_⟩
    · -- RTP
      intro v ct hle hc
      simp only [RTP]
      cases ct
      case noneC => cases v <;> simp [confB] at hc
      case listC => cases v <;> simp [confB] at hc
      case dictC => cases v <;> simp [confB] at hc
      case intC =>
        cases v <;> simp [confB] at hc
        case int n =>
          have he : (structure_encode (.int n) CT.intC).bind pack = some (.int n) := by
            simp [structure_encode, ctSplit, pack]
          have hd : structure_decode (.int n) CT.intC = some (.int n) := by
            simp [structure_decode, ctSplit]
          exact ⟨.int n, he, rfl, fun _ => he, .int n, hd, he⟩
      case floatC =>
        cases v <;> simp [confB] at hc
        case float b =>
          have he : (structure_encode (.float b) CT.floatC).bind pack = some (.float b) := by
            simp [structure_encode, ctSplit, pack]
          have hd : structure_decode (.float b) CT.floatC = some (.float b) := by
            simp [structure_decode, ctSplit]
          exact ⟨.float b, he, rfl, fun _ => he, .float b, hd, he⟩
      case boolC =>
        cases v <;> simp [confB] at hc
        case bool b =>
          have he : (structure_encode (.bool b) CT.boolC).bind pack = some (.bool b) := by
            simp [structure_encode, ctSplit, pack]
          have hd : structure_decode (.bool b) CT.boolC = some (.bool b) := by
            simp [structure_decode, ctSplit]
          exact ⟨.bool b, he, rfl, fun _ => he, .bool b, hd, he⟩
      case strC =>
        cases v <;> simp [confB] at hc
        case str t =>
          have he : (structure_encode (.str t) CT.strC).bind pack = some (.bytes t) := by
            simp [structure_encode, ctSplit, pack]
          have he2 : (structure_encode (.bytes t) CT.strC).bind pack = some (.bytes t) := by
            simp [structure_encode, ctSplit, pack]
          have hd : structure_decode (.bytes t) CT.strC = some (.bytes t) := by
            simp [structure_decode, ctSplit]
          exact ⟨.bytes t, he, rfl, fun _ => he2, .bytes t, hd, he2⟩
        case bytes t =>
          have he2 : (structure_encode (.bytes t) CT.strC).bind pack = some (.bytes t) := by
            simp [structure_encode, ctSplit, pack]
          have hd : structure_decode (.bytes t) CT.strC = some (.bytes t) := by
            simp [structure_decode, ctSplit]
          exact ⟨.bytes t, he2, rfl, fun _ => he2, .bytes t, hd, he2⟩
      case byteArrC =>
        cases v <;> simp [confB] at hc
        case bytearr b =>
          have he : (structure_encode (.bytearr b) CT.byteArrC).bind pack
              = some (.bytes b) := by
            simp [structure_encode, ctSplit, pack]
          have he2 : (structure_encode (.bytes b) CT.byteArrC).bind pack
              = some (.bytes b) := by
            simp [structure_encode, ctSplit, pack]
          have hd : structure_decode (.bytes b) CT.byteArrC = some (.bytearr b) := by
            simp [structure_decode, ctSplit]
          exact ⟨.bytes b, he, rfl, fun _ => he2, .bytearr b, hd, he⟩
      case enumC vs =>
        cases v <;> simp [confB] at hc
        case int n =>
          have he2 : (structure_encode (.int n) (CT.enumC vs)).bind pack
              = some (.int n) := by
            simp [structure_encode, ctSplit, pack]
          have hd : structure_decode (.int n) (CT.enumC vs) = some (.int n) := by
            simp [structure_decode, ctSplit]
          exact ⟨.int n, he2, rfl, fun _ => he2, .int n, hd, he2⟩
        case enumv n =>
          have he : (structure_encode (.enumv n) (CT.enumC vs)).bind pack
              = some (.int n) := by
            simp [structure_encode, ctSplit, pack]
          have he2 : (structure_encode (.int n) (CT.enumC vs)).bind pack
              = some (.int n) := by
            simp [structure_encode, ctSplit, pack]
          have hd : structure_decode (.int n) (CT.enumC vs) = some (.int n) := by
            simp [structure_decode, ctSplit]
          exact ⟨.int n, he, rfl, fun _ => he2, .int n, hd, he2⟩
      case arrC =>
        have hp : plainB v = true := by
          cases v <;> simpa [confB, plainB] using hc
        obtain ⟨pw, p1, p2, p3⟩ := (plainPackAux (sizeOf v + 1)).1 v (Nat.lt_succ_self _) hp
        have he : (structure_encode v .arrC).bind pack = some pw := by
          rw [encode_arrC_plain v hp]
          simpa using p1
        have he2 : (structure_encode pw .arrC).bind pack = some pw := by
          rw [encode_arrC_plain pw p2]
          simpa using p3
        exact ⟨pw, he, p3, fun _ => he2, pw, decode_arrC pw, he2⟩
      case structC s =>
        cases v
        case struct s2 vals =>
          simp only [confB, Bool.and_eq_true] at hc
          obtain ⟨⟨hse, hnod⟩, hcf⟩ := hc
          obtain rfl : s2 = s := (sfEqB_iff s2 s).mp hse
          obtain ⟨ws, f1, f2, f3, vals2, f4, f5⟩ := ih.2.1 s2 vals
            (by simp only [PyVal.struct.sizeOf_spec] at hle; omega) hnod hcf
          rcases htd : to_dict s2 vals with _ | d
          · rw [htd] at f1; simp at f1
          · rw [htd] at f1; simp at f1
            have he : (structure_encode (.struct s2 vals) (.structC s2)).bind pack
                = some (.dict (bkeys ws)) := by
              simp [structure_encode, ctSplit, htd, f1]
            have hp : pack (.dict (bkeys ws)) = some (.dict (bkeys ws)) := by
              simp [pack, packPairs_bkeys ws f3]
            have hfal : truthy (.dict (bkeys ws)) = false →
                (structure_encode (.dict (bkeys ws)) (.structC s2)).bind pack
                  = some (.dict (bkeys ws)) := by
              intro hf
              rcases hbk : bkeys ws with _ | ⟨q, rest2⟩
              · simp [structure_encode, ctSplit, pack, packPairs]
              · rw [hbk] at hf
                simp [truthy] at hf
            have hdec : structure_decode (.dict (bkeys ws)) (.structC s2)
                = some (.struct s2 vals2) := by
              simp [structure_decode, ctSplit, f4]
            rcases htd2 : to_dict s2 vals2 with _ | d2
            · rw [htd2] at f5; simp at f5
            · rw [htd2] at f5; simp at f5
              have he2 : (structure_encode (.struct s2 vals2) (.structC s2)).bind pack
                  = some (.dict (bkeys ws)) := by
                simp [structure_encode, ctSplit, htd2, f5]
              exact ⟨.dict (bkeys ws), he, hp, hfal, .struct s2 vals2, hdec, he2⟩
        all_goals simp [confB] at hc
      case tupC elems =>
        rcases elems with _ | ⟨c1, _ | ⟨c2, _ | ⟨c3, rest3⟩⟩⟩
        · cases v <;> simp [confB] at hc
        · cases v <;> simp [confB] at hc
        · -- elems = [c1, c2]
          cases c1
          case listC =>
            cases v
            case list xs =>
              simp only [confB, Bool.and_eq_true] at hc
              obtain ⟨hat, hcl⟩ := hc
              obtain ⟨lw, l1, l2, ds, l3, l4⟩ := ih.2.2.1 xs c2
                (by simp only [PyVal.list.sizeOf_spec] at hle; omega) hat hcl
              rcases hel : structure_encodeList xs (.tupC [c2]) with _ | ys
              · rw [hel] at l1; simp at l1
              · rw [hel] at l1; simp at l1
                have he : (structure_encode (.list xs)
                    (.tupC [.listC, c2])).bind pack = some (.list lw) := by
                  simp [structure_encode, ctSplit, hel, pack, l1]
                have hp : pack (.list lw) = some (.list lw) := by simp [pack, l2]
                have hfal : truthy (.list lw) = false →
                    (structure_encode (.list lw) (.tupC [.listC, c2])).bind pack
                      = some (.list lw) := by
                  intro hf
                  rcases lw with _ | ⟨y, lr⟩
                  · simp [structure_encode, ctSplit, structure_encodeList, pack, packList]
                  · simp [truthy] at hf
                have hdec : structure_decode (.list lw) (.tupC [.listC, c2])
                    = some (.list ds) := by
                  simp [structure_decode, ctSplit, l3]
                rcases hel2 : structure_encodeList ds (.tupC [c2]) with _ | zs
                · rw [hel2] at l4; simp at l4
                · rw [hel2] at l4; simp at l4
                  have he2 : (structure_encode (.list ds)
                      (.tupC [.listC, c2])).bind pack = some (.list lw) := by
                    simp [structure_encode, ctSplit, hel2, pack, l4]
                  exact ⟨.list lw, he, hp, hfal, .list ds, hdec, he2⟩
            all_goals simp [confB] at hc
          case dictC =>
            cases c2
            case tupC inner =>
              rcases inner with _ | ⟨kt, _ | ⟨vt, _ | ⟨x3, xr⟩⟩⟩
              · cases v <;> simp [confB] at hc
              · cases v <;> simp [confB] at hc
              · -- inner = [kt, vt]
                cases v
                case dict es =>
                  simp only [confB, Bool.and_eq_true] at hc
                  obtain ⟨⟨hak, hav⟩, hcp⟩ := hc
                  obtain ⟨pws, q1, q2, qds, q3, q4⟩ := ih.2.2.2 es kt vt
                    (by simp only [PyVal.dict.sizeOf_spec] at hle; omega) hcp
                  rcases hep : structure_encodePairs es kt vt with _ | fs
                  · rw [hep] at q1; simp at q1
                  · rw [hep] at q1; simp at q1
                    have he : (structure_encode (.dict es)
                        (.tupC [.dictC, .tupC [kt, vt]])).bind pack
                          = some (.dict pws) := by
                      simp [structure_encode, ctSplit, dictRestSplit, hep, pack, q1]
                    have hp : pack (.dict pws) = some (.dict pws) := by simp [pack, q2]
                    have hfal : truthy (.dict pws) = false →
                        (structure_encode (.dict pws)
                          (.tupC [.dictC, .tupC [kt, vt]])).bind pack
                            = some (.dict pws) := by
                      intro hf
                      rcases pws with _ | ⟨q, pr⟩
                      · simp [structure_encode, ctSplit, dictRestSplit,
                          structure_encodePairs, pack, packPairs]
                      · simp [truthy] at hf
                    have hdec : structure_decode (.dict pws)
                        (.tupC [.dictC, .tupC [kt, vt]]) = some (.dict qds) := by
                      simp [structure_decode, ctSplit, dictRestSplit, q3]
                    rcases hep2 : structure_encodePairs qds kt vt with _ | fs2
                    · rw [hep2] at q4; simp at q4
                    · rw [hep2] at q4; simp at q4
                      have he2 : (structure_encode (.dict qds)
                          (.tupC [.dictC, .tupC [kt, vt]])).bind pack
                            = some (.dict pws) := by
                        simp [structure_encode, ctSplit, dictRestSplit, hep2, pack, q4]
                      exact ⟨.dict pws, he, hp, hfal, .dict qds, hdec, he2⟩
                all_goals simp [confB] at hc
              · cases v <;> simp [confB] at hc
            all_goals cases v <;> simp [confB] at hc
          all_goals cases v <;> simp [confB] at hc
        · cases v <;> simp [confB] at hc
    · -- RTF
      intro s vals hle hn hcf
      simp only [RTF]
      cases s with
      | nil =>
        cases vals with
        | cons q w => simp [confFieldsB] at hcf
        | nil =>
          refine ⟨[], ?_, ?_, ?_, [], ?_, ?_⟩
          · simp [to_dict, pack, packPairs, bkeys]
          · simp [schemaNames, bkeys]
          · intro q hq; simp at hq
          · simp [from_dict, bkeys]
          · simp [to_dict, pack, packPairs, bkeys]
      | cons p rest =>
        obtain ⟨name, ct⟩ := p
        cases vals with
        | nil => simp [confFieldsB] at hcf
        | cons q w =>
          obtain ⟨m, v⟩ := q
          simp only [confFieldsB, Bool.and_eq_true, beq_iff_eq] at hcf
          obtain ⟨⟨hname, hcv⟩, hcw⟩ := hcf
          subst hname
          simp only [schemaNodupB, decide_eq_true_eq, schemaNames, List.map_cons,
            List.nodup_cons] at hn
          obtain ⟨hn1, hn2⟩ := hn
          have hn1s : name ∉ schemaNames rest := by simp only [schemaNames]; exact hn1
          have hb : sizeOf v < N ∧ sizeOf w < N := by
            simp only [List.cons.sizeOf_spec, Prod.mk.sizeOf_spec] at hle; omega
          obtain ⟨w0, e_enc, e_fix, e_fal, d0, e_dec, e_renc⟩ := ih.1 v ct hb.1 hcv
          obtain ⟨ws2, f_enc, f_names, f_fix, tail2, f_fd, f_renc⟩ := ih.2.1 rest w hb.2
            (by simp only [schemaNodupB, decide_eq_true_eq, schemaNames]; exact hn2) hcw
          rcases htd : to_dict rest w with _ | d
          · rw [htd] at f_enc; simp at f_enc
          · rw [htd] at f_enc; simp at f_enc
            have hppd : packPairs d = some (bkeys ws2) := by
              rcases hpp : packPairs d with _ | pd
              · simp [pack, hpp] at f_enc
              · simp [pack, hpp] at f_enc
                rw [f_enc]
            rcases hev : structure_encode v ct with _ | e0
            · rw [hev] at e_enc; simp at e_enc
            · rw [hev] at e_enc; simp at e_enc
              have htdfull : to_dict ((name, ct) :: rest) ((name, v) :: w)
                  = some ((.str name, e0) :: d) := by
                rw [to_dict_cons,
                  show fieldGet ((name, v) :: w) name = some v from by
                    rw [fieldGet, if_pos rfl]]
                dsimp only
                rw [hev, to_dict_skip rest name v w hn1s, htd]
              have hA : (to_dict ((name, ct) :: rest) ((name, v) :: w)).bind
                  (fun d2 => pack (.dict d2))
                    = some (.dict (bkeys ((name, w0) :: ws2))) := by
                rw [htdfull]
                simp [pack, packPairs, e_enc, hppd, bkeys]
              have hB : ((name, w0) :: ws2).map Prod.fst
                  = schemaNames ((name, ct) :: rest) := by
                simp only [schemaNames, List.map_cons] at f_names ⊢
                rw [f_names]
              have hC : ∀ q2 ∈ (name, w0) :: ws2, pack q2.2 = some q2.2 := by
                intro q2 hq2
                rcases List.mem_cons.mp hq2 with h | h
                · rw [h]; exact e_fix
                · exact f_fix q2 h
              have hg1 : dictGet (bkeys ((name, w0) :: ws2)) (.str name) = Option.none :=
                dictGet_bkeys_str _ _
              have hg2 : dictGet (bkeys ((name, w0) :: ws2)) (.bytes name) = some w0 := by
                rw [show bkeys ((name, w0) :: ws2)
                      = (PyVal.bytes name, w0) :: bkeys ws2 from rfl,
                  dictGet, if_pos (show pyKeyEq (PyVal.bytes name) (PyVal.bytes name)
                    = true from by simp [pyKeyEq])]
              have hsk : from_dict rest (bkeys ((name, w0) :: ws2))
                  = from_dict rest (bkeys ws2) := by
                rw [show bkeys ((name, w0) :: ws2)
                      = (PyVal.bytes name, w0) :: bkeys ws2 from rfl]
                exact from_dict_skip rest name w0 (bkeys ws2) hn1s
              have hval : (if truthy ((dictGet (bkeys ((name, w0) :: ws2))
                      (PyVal.str name)).getD PyVal.none) = true
                    then (dictGet (bkeys ((name, w0) :: ws2)) (PyVal.str name)).getD PyVal.none
                    else (dictGet (bkeys ((name, w0) :: ws2))
                      (PyVal.bytes name)).getD PyVal.none) = w0 := by
                rw [hg1, hg2]
                rfl
              by_cases hw : truthy w0 = true
              · have hD : from_dict ((name, ct) :: rest) (bkeys ((name, w0) :: ws2))
                    = some ((name, d0) :: tail2) := by
                  rw [from_dict.eq_2, hval, hsk, f_fd, if_pos hw, e_dec]
                have hE : (to_dict ((name, ct) :: rest) ((name, d0) :: tail2)).bind
                    (fun d2 => pack (.dict d2))
                      = some (.dict (bkeys ((name, w0) :: ws2))) := by
                  rcases htd2 : to_dict rest tail2 with _ | d2
                  · rw [htd2] at f_renc; simp at f_renc
                  · rw [htd2] at f_renc; simp at f_renc
                    have hppd2 : packPairs d2 = some (bkeys ws2) := by
                      rcases hpp2 : packPairs d2 with _ | pd2
                      · simp [pack, hpp2] at f_renc
                      · simp [pack, hpp2] at f_renc
                        rw [f_renc]
                    rcases hev2 : structure_encode d0 ct with _ | e1
                    · rw [hev2] at e_renc; simp at e_renc
                    · rw [hev2] at e_renc; simp at e_renc
                      rw [show to_dict ((name, ct) :: rest) ((name, d0) :: tail2)
                          = some ((.str name, e1) :: d2) from by
                        rw [to_dict_cons,
                          show fieldGet ((name, d0) :: tail2) name = some d0 from by
                            rw [fieldGet, if_pos rfl]]
                        dsimp only
                        rw [hev2, to_dict_skip rest name d0 tail2 hn1s, htd2]]
                      simp [pack, packPairs, e_renc, hppd2, bkeys]
                exact ⟨(name, w0) :: ws2, hA, hB, hC, (name, d0) :: tail2, hD, hE⟩
              · have hw0 : truthy w0 = false := by
                  revert hw; cases truthy w0 <;> simp
                have hre := e_fal hw0
                have hD : from_dict ((name, ct) :: rest) (bkeys ((name, w0) :: ws2))
                    = some ((name, w0) :: tail2) := by
                  rw [from_dict.eq_2, hval, hsk, f_fd, if_neg (by simp [hw0])]
                have hE : (to_dict ((name, ct) :: rest) ((name, w0) :: tail2)).bind
                    (fun d2 => pack (.dict d2))
                      = some (.dict (bkeys ((name, w0) :: ws2))) := by
                  rcases htd2 : to_dict rest tail2 with _ | d2
                  · rw [htd2] at f_renc; simp at f_renc
                  · rw [htd2] at f_renc; simp at f_renc
                    have hppd2 : packPairs d2 = some (bkeys ws2) := by
                      rcases hpp2 : packPairs d2 with _ | pd2
                      · simp [pack, hpp2] at f_renc
                      · simp [pack, hpp2] at f_renc
                        rw [f_renc]
                    rcases hev2 : structure_encode w0 ct with _ | e1
                    · rw [hev2] at hre; simp at hre
                    · rw [hev2] at hre; simp at hre
                      rw [show to_dict ((name, ct) :: rest) ((name, w0) :: tail2)
                          = some ((.str name, e1) :: d2) from by
                        rw [to_dict_cons,
                          show fieldGet ((name, w0) :: tail2) name = some w0 from by
                            rw [fieldGet, if_pos rfl]]
                        dsimp only
                        rw [hev2, to_dict_skip rest name w0 tail2 hn1s, htd2]]
                      simp [pack, packPairs, hre, hppd2, bkeys]
                exact ⟨(name, w0) :: ws2, hA, hB, hC, (name, w0) :: tail2, hD, hE⟩
    · -- RTL
      intro xs e hle hat hcl
      simp only [RTL]
      cases xs with
      | nil =>
        exact ⟨[], by simp [structure_encodeList, packList], rfl, [],
          by simp [structure_decodeList], by simp [structure_encodeList, packList]⟩
      | cons x r =>
        simp only [confListB, Bool.and_eq_true] at hcl
        have hb : sizeOf x < N ∧ sizeOf r < N := by
          simp only [List.cons.sizeOf_spec] at hle; omega
        obtain ⟨w0, e_enc, e_fix, e_fal, d0, e_dec, e_renc⟩ := ih.1 x e hb.1 hcl.1
        obtain ⟨lw, l1, l2, ds, l3, l4⟩ := ih.2.2.1 r e hb.2 hat hcl.2
        rcases hex : structure_encode x e with _ | e0
        · rw [hex] at e_enc; simp at e_enc
        · rw [hex] at e_enc; simp at e_enc
          rcases her : structure_encodeList r (.tupC [e]) with _ | ys
          · rw [her] at l1; simp at l1
          · rw [her] at l1; simp at l1
            refine ⟨w0 :: lw, ?_, ?_, d0 :: ds, ?_, ?_⟩
            · simp [structure_encodeList, tup1_encode x e hat, hex, her,
                packList, e_enc, l1]
            · simp [packList, e_fix, l2]
            · simp [structure_decodeList, tup1_decode w0 e hat, e_dec, l3]
            · rcases hex2 : structure_encode d0 e with _ | e2
              · rw [hex2] at e_renc; simp at e_renc
              · rw [hex2] at e_renc; simp at e_renc
                rcases her2 : structure_encodeList ds (.tupC [e]) with _ | zs
                · rw [her2] at l4; simp at l4
                · rw [her2] at l4; simp at l4
                  simp [structure_encodeList, tup1_encode d0 e hat, hex2, her2,
                    packList, e_renc, l4]
    · -- RTPairs
      intro es kt vt hle hcp
      simp only [RTPairs]
      cases es with
      | nil =>
        exact ⟨[], by simp [structure_encodePairs, packPairs], rfl, [],
          by simp [structure_decodePairs], by simp [structure_encodePairs, packPairs]⟩
      | cons p r =>
        obtain ⟨k, v⟩ := p
        simp only [confPairsB, Bool.and_eq_true] at hcp
        obtain ⟨⟨hck, hcv⟩, hcr⟩ := hcp
        have hb : sizeOf k < N ∧ sizeOf v < N ∧ sizeOf r < N := by
          simp only [List.cons.sizeOf_spec, Prod.mk.sizeOf_spec] at hle; omega
        obtain ⟨wk, a_enc, a_fix, a_fal, dk, a_dec, a_renc⟩ := ih.1 k kt hb.1 hck
        obtain ⟨wv, b_enc, b_fix, b_fal, dv, b_dec, b_renc⟩ := ih.1 v vt hb.2.1 hcv
        obtain ⟨pws, r1, r2, rds, r3, r4⟩ := ih.2.2.2 r kt vt hb.2.2 hcr
        rcases hek : structure_encode k kt with _ | ek
        · rw [hek] at a_enc; simp at a_enc
        · rw [hek] at a_enc; simp at a_enc
          rcases hev : structure_encode v vt with _ | ev
          · rw [hev] at b_enc; simp at b_enc
          · rw [hev] at b_enc; simp at b_enc
            rcases her : structure_encodePairs r kt vt with _ | er
            · rw [her] at r1; simp at r1
            · rw [her] at r1; simp at r1
              refine ⟨(wk, wv) :: pws, ?_, ?_, (dk, dv) :: rds, ?_, ?_⟩
              · simp [structure_encodePairs, hek, hev, her, packPairs, a_enc, b_enc, r1]
              · simp [packPairs, a_fix, b_fix, r2]
              · simp [structure_decodePairs, a_dec, b_dec, r3]
              · rcases hek2 : structure_encode dk kt with _ | ek2
                · rw [hek2] at a_renc; simp at a_renc
                · rw [hek2] at a_renc; simp at a_renc
                  rcases hev2 : structure_encode dv vt with _ | ev2
                  · rw [hev2] at b_renc; simp at b_renc
                  · rw [hev2] at b_renc; simp at b_renc
                    rcases her2 : structure_encodePairs rds kt vt with _ | er2
                    · rw [her2] at r4; simp at r4
                    · rw [her2] at r4; simp at r4
                      simp [structure_encodePairs, hek2, hev2, her2, packPairs,
                        a_renc, b_renc, r4]

/-- C2: for every structure schema with distinct declared field names and
every conformant instance of it, to_bytes succeeds, from_bytes on the
result succeeds, the rebuilt instance has the same to_bytes image, and
Serializable.__eq__ between the original and the rebuilt instance is
True (Python == on Serializable objects compares the to_bytes images).
The round trip passes through the packed msgpack tree, covering scalar,
enum, nested structure, sequence, mapping, bytearray and Array-typed
fields. -/
theorem c2_roundtrip (s : SchemaFields) (vals : PyFields)
    (hn : schemaNodupB s = true) (hc : confFieldsB s vals = true) :
    ∃ w vals2,
      structureToBytes s vals = some w ∧
      structureFromBytes s w = some vals2 ∧
      structureToBytes s vals2 = some w ∧
      serializableEq (.structObj s vals) (.serObj (.structObj s vals2)) = some true := by
  obtain ⟨ws, f_enc, f_names, f_fix, vals2, f_fd, f_renc⟩ :=
    (rtAux (sizeOf vals + 1)).2.1 s vals (Nat.lt_succ_self _) hn hc
  rcases htd : to_dict s vals with _ | d
  · rw [htd] at f_enc; simp at f_enc
  · rw [htd] at f_enc; simp at f_enc
    have hbytes : structureToBytes s vals = some (.dict (bkeys ws)) := by
      simp [structureToBytes, htd, f_enc]
    rcases htd2 : to_dict s vals2 with _ | d2
    · rw [htd2] at f_renc; simp at f_renc
    · rw [htd2] at f_renc; simp at f_renc
      have hbytes2 : structureToBytes s vals2 = some (.dict (bkeys ws)) := by
        simp [structureToBytes, htd2, f_renc]
      refine ⟨.dict (bkeys ws), vals2, hbytes, ?_, hbytes2, ?_⟩
      · simp [structureFromBytes, f_fd]
      · simp [serializableEq, serializableToBytes, hbytes, hbytes2]
        exact (pvEqB_iff _ _).mpr rfl

/-- Closed witness for c2_roundtrip: a nine-field schema covering int,
enum, nested structure, sequence, mapping, Array, bytearray, str and
float fields, with falsy field values (0, empty text, float 0) among
them. -/
theorem c2_roundtrip_witness :
    schemaNodupB demoSchema = true ∧ confFieldsB demoSchema demoVals = true ∧
    ∃ w vals2,
      structureToBytes demoSchema demoVals = some w ∧
      structureFromBytes demoSchema w = some vals2 ∧
      structureToBytes demoSchema vals2 = some w ∧
      serializableEq (.structObj demoSchema demoVals)
        (.serObj (.structObj demoSchema vals2)) = some true :=
  ⟨by decide,
   by simp [demoSchema, demoVals, confFieldsB, confB, atomB, plainB, plainListB,
     plainPairsB, sfEqB, ctlEqB, ctEqB, schemaNodupB, schemaNames, confListB, confPairsB],
   c2_roundtrip demoSchema demoVals (by decide)
     (by simp [demoSchema, demoVals, confFieldsB, confB, atomB, plainB, plainListB,
       plainPairsB, sfEqB, ctlEqB, ctEqB, schemaNodupB, schemaNames, confListB,
       confPairsB])⟩

end SensCord
